import Mathlib

/-!
# YOLOv5-LibTorch: non-maximum suppression and coordinate rescaling

A shallow embedding of `non_max_suppression` and of the rescaling loop of `main`
(`src/YOLOv5LibTorch.cpp`).

## Numbers

A tensor element is modelled by `Flt`: an exact rational, or `nan`.

* Arithmetic on numbers is exact: the rounding, the overflow and the infinities of
  binary32 are not part of the model.
* An operation with a `nan` operand yields `nan`; a comparison with a `nan` operand is false.
* A division by zero yields `nan`.  (IEEE gives NaN for `0/0` and an infinity for `x/0`,
  `x ≠ 0`.  The only quotient of the program whose divisor depends on the data is the IoU;
  its numerator is never negative and the quotient is only ever tested with
  `<= iou_thresh`, a test that NaN and +Inf both fail.)

## Tensors

* One row of the `[n, 5 + K]` prediction tensor of an image is a `Row`: the columns
  `c0 .. c5` and the list `rest` of the columns from 6 on, so `K = 1 + rest.length`.
  (With `K = 0` the call `torch::max` over the empty class slice raises and the function
  returns nothing.)
* An image is the list of its rows, a batch the list of its images.
* A one-dimensional index tensor is a `List Nat`.
* `dets = pred.slice(1, 0, 6)` is a list of `Det`.

The library calls `torch::max`, `torch::sort`, `torch::nonzero` and `torch::index_select`
are modelled by the functions of the same name below.
-/

namespace YOLOv5

/-! ## Numbers -/

/-- Tensor element: an exact rational number or NaN. -/
inductive Flt where
  | nan : Flt
  | fin : ℚ → Flt
deriving DecidableEq

namespace Flt

instance : Inhabited Flt := ⟨nan⟩

/-- Test `std::isnan`. -/
def isNan : Flt → Bool
  | nan => true
  | fin _ => false

/-- Sum `a + b`. -/
def add : Flt → Flt → Flt
  | fin a, fin b => fin (a + b)
  | _, _ => nan

/-- Difference `a - b`. -/
def sub : Flt → Flt → Flt
  | fin a, fin b => fin (a - b)
  | _, _ => nan

/-- Product `a * b`. -/
def mul : Flt → Flt → Flt
  | fin a, fin b => fin (a * b)
  | _, _ => nan

/-- Quotient `a / b`; a zero divisor gives NaN. -/
def div : Flt → Flt → Flt
  | fin a, fin b => if b = 0 then nan else fin (a / b)
  | _, _ => nan

/-- Comparison `a < b`, false when an operand is NaN. -/
def lt : Flt → Flt → Bool
  | fin a, fin b => decide (a < b)
  | _, _ => false

/-- Comparison `a <= b`, false when an operand is NaN. -/
def le : Flt → Flt → Bool
  | fin a, fin b => decide (a ≤ b)
  | _, _ => false

/-- Comparison `a > b`, false when an operand is NaN. -/
def gt (a b : Flt) : Bool := lt b a

/-- Comparison `a >= b`, false when an operand is NaN. -/
def ge (a b : Flt) : Bool := le b a

/-- The C++ `std::max(a, b)`, that is `(a < b) ? b : a`. -/
def max (a b : Flt) : Flt := if lt a b then b else a

/-- The C++ `std::min(a, b)`, that is `(b < a) ? b : a`. -/
def min (a b : Flt) : Flt := if lt b a then b else a

/-- Conversion of an `int` to a tensor element. -/
def ofInt (z : Int) : Flt := fin (z : ℚ)

/-- Conversion `toInt()` of a tensor element: truncation toward zero.  The conversion of
NaN is undefined in C++; the model returns 0 there. -/
def toInt : Flt → Int
  | fin q => Int.tdiv q.num q.den
  | nan => 0

end Flt

open Flt (nan fin)

/-! ## Rows and detections -/

/-- One row of the prediction tensor of an image: columns 0 to 5 and the columns after
them.  On entry `c0 .. c3` are `center_x, center_y, w, h`, `c4` is the objectness and
`c5 :: rest` are the class scores. -/
structure Row where
  c0 : Flt
  c1 : Flt
  c2 : Flt
  c3 : Flt
  c4 : Flt
  c5 : Flt
  rest : List Flt
deriving DecidableEq

/-- One row of `dets = pred.slice(1, 0, 6)`: `left, top, right, bottom, score, class`. -/
structure Det where
  c0 : Flt
  c1 : Flt
  c2 : Flt
  c3 : Flt
  c4 : Flt
  c5 : Flt
deriving DecidableEq

instance : Inhabited Row := ⟨⟨nan, nan, nan, nan, nan, nan, []⟩⟩

instance : Inhabited Det := ⟨⟨nan, nan, nan, nan, nan, nan⟩⟩

/-! ## Library calls -/

/-- Scan of `torch::max` along one row: `m` is the running maximum, `idx` its position and
`i` the position of the head of the list.  A value replaces the maximum when it is not
`<=` the maximum; a NaN stops the scan. -/
def maxScan (m : Flt) (idx : Nat) (i : Nat) : List Flt → Flt × Nat
  | [] => (m, idx)
  | v :: vs =>
    if !(v.le m) then
      if v.isNan then (v, i) else maxScan v i (i + 1) vs
    else maxScan m idx (i + 1) vs

/-- The slice `pred.slice(1, 5, pred.sizes()[1])` of one row: its class scores. -/
def classScores (r : Row) : List Flt := r.c5 :: r.rest

/-- The call `torch::max(pred.slice(1, 5, pred.sizes()[1]), 1)` on one row: the maximal
class score and the first position where it stands. -/
def torchMax (r : Row) : Flt × Nat := maxScan r.c5 0 0 (classScores r)

/-- Positions of the true entries of a mask, counted from `i`. -/
def nonzeroFrom (i : Nat) : List Bool → List Nat
  | [] => []
  | b :: bs => if b then i :: nonzeroFrom (i + 1) bs else nonzeroFrom (i + 1) bs

/-- The call `torch::nonzero(mask).select(1, 0)`: the positions of the true entries. -/
def nonzero (mask : List Bool) : List Nat := nonzeroFrom 0 mask

/-- The call `torch::index_select(xs, 0, idx)`: the entries of `xs` at the positions `idx`. -/
def index_select {α : Type} [Inhabited α] (xs : List α) (idx : List Nat) : List α :=
  idx.map (fun i => xs.getD i default)

/-- Comparator of the descending `torch::sort`: NaN ranks before every number, and a
number ranks before every smaller number. -/
def descBefore (a b : Flt) : Bool := (a.isNan && !b.isNan) || a.gt b

/-- Modelled from the spec: the order `torch::sort` gives to equal values.  The routine is
library code, not among the sources, and the call of line 36 does not ask for a stable
sort; the spec states the tie-break policy, a stable sort (ties preserve original order).
A (value, position) pair is inserted into a descending list after the entries that rank
strictly before it and before all the others; the list is built from the last position to
the first, so equal values keep their original order. -/
def insertDesc (x : Flt × Nat) : List (Flt × Nat) → List (Flt × Nat)
  | [] => [x]
  | y :: ys => if descBefore y.1 x.1 then y :: insertDesc x ys else x :: y :: ys

/-- Descending sort of (value, position) pairs. -/
def sortPairs : List (Flt × Nat) → List (Flt × Nat)
  | [] => []
  | x :: xs => insertDesc x (sortPairs xs)

/-- The call `torch::sort(v, 0, 1)`: the values in descending order and the positions
they come from. -/
def torchSort (v : List Flt) : List Flt × List Nat :=
  let s := sortPairs (v.zip (List.range v.length))
  (s.map Prod.fst, s.map Prod.snd)

/-! ## non_max_suppression -/

/-- Line 16: `scores = pred.select(1, 4) * max(pred.slice(1, 5, ..), 1).values`. -/
def filterScores (pred : List Row) : List Flt :=
  List.zipWith Flt.mul (pred.map (fun r => r.c4)) (pred.map (fun r => (torchMax r).1))

/-- Line 17: `pred = index_select(pred, 0, nonzero(scores > score_thresh).select(1, 0))`. -/
def scoreFilter (pred : List Row) (score_thresh : Flt) : List Row :=
  index_select pred (nonzero ((filterScores pred).map (fun s => s.gt score_thresh)))

/-- Lines 22 to 25: the four in-place column updates, each on the tensor left by the one
before it. -/
def toCorner (pred : List Row) : List Row :=
  let p1 := pred.map (fun r => { r with c0 := r.c0.sub (r.c2.div (fin 2)) })
  let p2 := p1.map (fun r => { r with c1 := r.c1.sub (r.c3.div (fin 2)) })
  let p3 := p2.map (fun r => { r with c2 := r.c0.add r.c2 })
  let p4 := p3.map (fun r => { r with c3 := r.c1.add r.c3 })
  p4

/-- Lines 28 to 30: `max_tuple` is computed once, then column 4 and column 5 are
overwritten in place. -/
def scoreAndClass (pred : List Row) : List Row :=
  let max_tuple := pred.map torchMax
  let p5 := List.zipWith (fun r m => { r with c4 := r.c4.mul m.1 }) pred max_tuple
  let p6 := List.zipWith (fun r m => { r with c5 := fin (m.2 : ℚ) }) p5 max_tuple
  p6

/-- The slice `pred.slice(1, 0, 6)` of one row. -/
def slice6 (r : Row) : Det := ⟨r.c0, r.c1, r.c2, r.c3, r.c4, r.c5⟩

/-- Lines 16 to 32 for one image: the filtered and transformed tensor `dets`. -/
def detsOf (pred : List Row) (score_thresh : Flt) : List Det :=
  (scoreAndClass (toCorner (scoreFilter pred score_thresh))).map slice6

/-- Line 35, one entry: `(bottom - top) * (right - left)`. -/
def area (d : Det) : Flt := (d.c3.sub d.c1).mul (d.c2.sub d.c0)

/-- State of the `while` loop: the buffer `keep`, the counter `count`, the tensor
`indexes`. -/
structure NmsState where
  keep : List Nat
  count : Nat
  indexes : List Nat
deriving DecidableEq

/-- Lines 42 to 65: one pass through the body of the `while` loop. -/
def nmsBody (dets : List Det) (areas : List Flt) (iou_thresh : Flt) (s : NmsState) :
    NmsState :=
  let i0 := s.indexes.getD 0 0
  let keep := s.keep.set s.count i0
  let count := s.count + 1
  let others := s.indexes.drop 1
  let d0 := dets.getD i0 default
  let lefts := others.map (fun j => Flt.max d0.c0 (dets.getD j default).c0)
  let tops := others.map (fun j => Flt.max d0.c1 (dets.getD j default).c1)
  let rights := others.map (fun j => Flt.min d0.c2 (dets.getD j default).c2)
  let bottoms := others.map (fun j => Flt.min d0.c3 (dets.getD j default).c3)
  let widths := List.zipWith (fun r l => Flt.max (fin 0) (r.sub l)) rights lefts
  let heights := List.zipWith (fun b t => Flt.max (fin 0) (b.sub t)) bottoms tops
  let overlaps := List.zipWith Flt.mul widths heights
  let sel := index_select areas others
  let sums := sel.map (fun a => (areas.getD i0 default).add a)
  let ious := List.zipWith Flt.div overlaps (List.zipWith Flt.sub sums overlaps)
  let nz := nonzero (ious.map (fun x => x.le iou_thresh))
  { keep := keep, count := count, indexes := index_select s.indexes (nz.map (fun p => p + 1)) }

/-- The `while (indexes.sizes()[0] > 0)` loop, run for at most `fuel` passes. -/
def nmsLoop (dets : List Det) (areas : List Flt) (iou_thresh : Flt) :
    Nat → NmsState → NmsState
  | 0, s => s
  | fuel + 1, s =>
    if s.indexes.length > 0 then
      nmsLoop dets areas iou_thresh fuel (nmsBody dets areas iou_thresh s)
    else s

/-- Lines 34 to 39: the state on entry to the loop. -/
def nmsInit (dets : List Det) : NmsState :=
  { keep := List.replicate dets.length 0
    count := 0
    indexes := (torchSort (dets.map (fun d => d.c4))).2 }

/-- Lines 34 to 66: the state on exit from the loop.  The loop is given `dets.length`
passes, which is enough for it to exit (`nmsFinal_indexes`). -/
def nmsFinal (dets : List Det) (iou_thresh : Flt) : NmsState :=
  nmsLoop dets (dets.map area) iou_thresh dets.length (nmsInit dets)

/-- Line 68, the index argument: `keep.slice(0, 0, count)`. -/
def nmsKeep (dets : List Det) (iou_thresh : Flt) : List Nat :=
  let s := nmsFinal dets iou_thresh
  s.keep.take s.count

/-- Lines 34 to 68: `index_select(dets, 0, keep.slice(0, 0, count))`. -/
def nms (dets : List Det) (iou_thresh : Flt) : List Det :=
  index_select dets (nmsKeep dets iou_thresh)

/-- Body of the `for` loop over the batch for one image: nothing is pushed when no
candidate passes the score filter (`continue`, line 19). -/
def nmsImage (pred : List Row) (score_thresh iou_thresh : Flt) : Option (List Det) :=
  if (scoreFilter pred score_thresh).length = 0 then none
  else some (nms (detsOf pred score_thresh) iou_thresh)

/-- The function `non_max_suppression(preds, score_thresh, iou_thresh)`. -/
def non_max_suppression (preds : List (List Row)) (score_thresh iou_thresh : Flt) :
    List (List Det) :=
  preds.filterMap (fun pred => nmsImage pred score_thresh iou_thresh)

/-! ## The rescaling loop of main -/

/-- The six values `main` computes for one detection (lines 188 to 193). -/
structure Box where
  left : Flt
  top : Flt
  right : Flt
  bottom : Flt
  score : Flt
  classID : Int
deriving DecidableEq

/-- Lines 188 to 193 for one row of `dets[0]`; `cols` and `rows` are `frame.cols` and
`frame.rows`. -/
def rescale (cols rows width height : Int) (d : Det) : Box :=
  { left := (d.c0.mul (Flt.ofInt cols)).div (Flt.ofInt width)
    top := (d.c1.mul (Flt.ofInt rows)).div (Flt.ofInt height)
    right := (d.c2.mul (Flt.ofInt cols)).div (Flt.ofInt width)
    bottom := (d.c3.mul (Flt.ofInt rows)).div (Flt.ofInt height)
    score := d.c4
    classID := d.c5.toInt }

/-! ## Notions used to state the properties -/

/-- Overlap of two boxes: clamped intersection width times clamped intersection height
(lines 54 to 61). -/
def overlap (a b : Det) : Flt :=
  let left := Flt.max a.c0 b.c0
  let top := Flt.max a.c1 b.c1
  let right := Flt.min a.c2 b.c2
  let bottom := Flt.min a.c3 b.c3
  (Flt.max (fin 0) (right.sub left)).mul (Flt.max (fin 0) (bottom.sub top))

/-- The area as the spec words it: `max(0, right - left) * max(0, bottom - top)`. -/
def areaClamped (d : Det) : Flt :=
  (Flt.max (fin 0) (d.c2.sub d.c0)).mul (Flt.max (fin 0) (d.c3.sub d.c1))

/-- The quotient `overlap / (area(a) + area(b) - overlap)` (line 64). -/
def IoU (a b : Det) : Flt :=
  (overlap a b).div (((area a).add (area b)).sub (overlap a b))

/-- Combined score of a raw candidate: objectness times maximal class score. -/
def rawScore (r : Row) : Flt := r.c4.mul (torchMax r).1

/-- The kept positions as a function of the remaining positions: the head is kept, the
positions of the tail whose IoU with it is `<= iou_thresh` remain. -/
def greedy (dets : List Det) (iou_thresh : Flt) : Nat → List Nat → List Nat
  | 0, _ => []
  | _ + 1, [] => []
  | fuel + 1, i0 :: others =>
    i0 :: greedy dets iou_thresh fuel
      (others.filter (fun j => (IoU (dets.getD i0 default) (dets.getD j default)).le iou_thresh))

/-- The detection a raw candidate becomes (lines 22 to 32 on one row). -/
def rowToDet (r : Row) : Det :=
  { c0 := r.c0.sub (r.c2.div (fin 2))
    c1 := r.c1.sub (r.c3.div (fin 2))
    c2 := (r.c0.sub (r.c2.div (fin 2))).add r.c2
    c3 := (r.c1.sub (r.c3.div (fin 2))).add r.c3
    c4 := r.c4.mul (torchMax r).1
    c5 := fin ((torchMax r).2 : ℚ) }

/-! ## Test data -/

/-- A raw candidate with two class scores. -/
def mkRow (cx cy w h obj s0 s1 : ℚ) : Row :=
  ⟨fin cx, fin cy, fin w, fin h, fin obj, fin s0, [fin s1]⟩

/-- The threshold 0.5. -/
def half : Flt := fin (1 / 2)

/-- One image, two candidates with the same zero-area box at the origin, scores 0.9
and 0.6. -/
def zeroPair : List Row := [mkRow 0 0 0 0 1 (9 / 10) 0, mkRow 0 0 0 0 1 (6 / 10) 0]

/-- One image, two candidates with disjoint boxes, scores 0.6 and 0.9. -/
def disjointPair : List Row := [mkRow 5 5 10 10 1 (6 / 10) 0, mkRow 50 50 10 10 1 0 (9 / 10)]

/-- One image whose only candidate has score 0.1. -/
def lowImage : List Row := [mkRow 5 5 10 10 1 (1 / 10) 0]

/-- One image whose only candidate has score 0.9. -/
def highImage : List Row := [mkRow 5 5 10 10 1 (9 / 10) 0]

/-- One image whose only candidate has score exactly 0.5. -/
def edgeImage : List Row := [mkRow 5 5 10 10 1 (1 / 2) 0]

/-- One image whose only candidate has width -10, height 10 and score 0.9. -/
def negImage : List Row := [mkRow 5 5 (-10) 10 1 (9 / 10) 0]

/-- One image, two candidates with disjoint boxes and the same score 0.7. -/
def tiePair : List Row := [mkRow 5 5 10 10 1 (7 / 10) 0, mkRow 50 50 10 10 1 0 (7 / 10)]

/-- One image, two candidates with the same box, scores 0.9 and 0.6. -/
def samePair : List Row := [mkRow 5 5 10 10 1 (9 / 10) 0, mkRow 5 5 10 10 1 (6 / 10) 0]

/-! ## List lemmas -/

theorem zipWith_map_same {α β γ δ : Type} (f : β → γ → δ) (g : α → β) (h : α → γ)
    (l : List α) : List.zipWith f (l.map g) (l.map h) = l.map (fun x => f (g x) (h x)) := by
  induction l with
  | nil => rfl
  | cons x xs ih => simp [ih]

theorem zipWith_same_map {α γ δ : Type} (f : α → γ → δ) (h : α → γ)
    (l : List α) : List.zipWith f l (l.map h) = l.map (fun x => f x (h x)) := by
  induction l with
  | nil => rfl
  | cons x xs ih => simp [ih]

theorem nonzeroFrom_succ (i : Nat) (m : List Bool) :
    (nonzeroFrom i m).map (fun p => p + 1) = nonzeroFrom (i + 1) m := by
  induction m generalizing i with
  | nil => rfl
  | cons b bs ih =>
    cases b <;> simp [nonzeroFrom, ih]

theorem index_select_nonzeroFrom {α : Type} [Inhabited α] (p : α → Bool) (xs pre : List α) :
    index_select (pre ++ xs) (nonzeroFrom pre.length (xs.map p)) = xs.filter p := by
  induction xs generalizing pre with
  | nil => simp [nonzeroFrom, index_select]
  | cons x t ih =>
    have h := ih (pre ++ [x])
    simp only [List.append_assoc, List.singleton_append, List.length_append,
      List.length_singleton] at h
    by_cases hp : p x = true
    · simp only [List.map_cons, nonzeroFrom, hp, if_true, List.filter_cons_of_pos]
      simp only [index_select, List.map_cons] at h ⊢
      rw [h]
      simp [List.getD_eq_getElem?_getD, List.getElem_append_right]
    · simp only [Bool.not_eq_true] at hp
      simp only [List.map_cons, nonzeroFrom, hp, List.filter_cons]
      simpa using h

theorem index_select_nonzero {α : Type} [Inhabited α] (p : α → Bool) (xs : List α) :
    index_select xs (nonzero (xs.map p)) = xs.filter p := by
  simpa [nonzero] using index_select_nonzeroFrom p xs []

theorem index_select_nonzero_tail {α : Type} [Inhabited α] (p : α → Bool) (x : α)
    (xs : List α) :
    index_select (x :: xs) ((nonzero (xs.map p)).map (fun i => i + 1)) = xs.filter p := by
  rw [nonzero, nonzeroFrom_succ]
  simpa using index_select_nonzeroFrom p xs [x]

/-! ## The pipeline before the loop -/

theorem scoreFilter_eq (pred : List Row) (st : Flt) :
    scoreFilter pred st = pred.filter (fun r => (rawScore r).gt st) := by
  unfold scoreFilter filterScores
  rw [zipWith_map_same, List.map_map]
  exact index_select_nonzero (fun r => (rawScore r).gt st) pred

theorem toCorner_eq (pred : List Row) :
    toCorner pred = pred.map (fun r =>
      { r with c0 := r.c0.sub (r.c2.div (fin 2)), c1 := r.c1.sub (r.c3.div (fin 2)),
               c2 := (r.c0.sub (r.c2.div (fin 2))).add r.c2,
               c3 := (r.c1.sub (r.c3.div (fin 2))).add r.c3 }) := by
  simp [toCorner, List.map_map, Function.comp_def]

theorem scoreAndClass_eq (pred : List Row) :
    scoreAndClass pred = pred.map (fun r =>
      { r with c4 := r.c4.mul (torchMax r).1, c5 := fin ((torchMax r).2 : ℚ) }) := by
  unfold scoreAndClass
  simp only [zipWith_same_map]
  rw [zipWith_map_same]

theorem detsOf_eq (pred : List Row) (st : Flt) :
    detsOf pred st = (pred.filter (fun r => (rawScore r).gt st)).map rowToDet := by
  unfold detsOf
  rw [scoreFilter_eq, toCorner_eq, scoreAndClass_eq, List.map_map, List.map_map]
  rfl

/-! ## The loop -/

theorem areas_getD (dets : List Det) (j : Nat) :
    (dets.map area).getD j default = area (dets.getD j default) := by
  by_cases h : j < dets.length
  · simp [List.getD_eq_getElem?_getD, h]
  · have h1 : dets.length ≤ j := Nat.le_of_not_lt h
    simp [List.getD_eq_getElem?_getD, List.getElem?_eq_none, h1]
    rfl

theorem nmsBody_cons (dets : List Det) (it : Flt) (keep : List Nat) (count i0 : Nat)
    (others : List Nat) :
    nmsBody dets (dets.map area) it ⟨keep, count, i0 :: others⟩ =
      ⟨keep.set count i0, count + 1,
        others.filter (fun j => (IoU (dets.getD i0 default) (dets.getD j default)).le it)⟩ := by
  unfold nmsBody
  simp only [List.getD_cons_zero, List.drop_succ_cons, List.drop_zero, zipWith_map_same,
    index_select, List.map_map, Function.comp_def, areas_getD]
  have h := index_select_nonzero_tail
    (fun j => (IoU (dets.getD i0 default) (dets.getD j default)).le it) i0 others
  simp only [index_select, List.map_map, Function.comp_def] at h
  rw [← h]
  rfl

theorem take_set_succ (l : List Nat) (n a : Nat) (h : n < l.length) :
    (l.set n a).take (n + 1) = l.take n ++ [a] := by
  induction l generalizing n with
  | nil => simp at h
  | cons x xs ih =>
    cases n with
    | zero => simp
    | succ m =>
      have hm : m < xs.length := by simpa using h
      simp [ih m hm]

theorem nmsLoop_spec (dets : List Det) (it : Flt) :
    ∀ (fuel : Nat) (s : NmsState), s.count + s.indexes.length ≤ s.keep.length →
      (nmsLoop dets (dets.map area) it fuel s).keep.take
          (nmsLoop dets (dets.map area) it fuel s).count
        = s.keep.take s.count ++ greedy dets it fuel s.indexes
      ∧ (s.indexes.length ≤ fuel → (nmsLoop dets (dets.map area) it fuel s).indexes = []) := by
  intro fuel
  induction fuel with
  | zero =>
    intro s _
    refine ⟨by simp [nmsLoop, greedy], ?_⟩
    intro h
    simpa [nmsLoop] using h
  | succ f ih =>
    intro s hs
    obtain ⟨keep, count, indexes⟩ := s
    cases indexes with
    | nil => simp [nmsLoop, greedy]
    | cons i0 others =>
      simp only [nmsLoop, List.length_cons, Nat.succ_pos, if_true, gt_iff_lt,
        Nat.zero_lt_succ, nmsBody_cons, greedy]
      simp only [List.length_cons] at hs
      have hlen : (others.filter
          (fun j => (IoU (dets.getD i0 default) (dets.getD j default)).le it)).length
          ≤ others.length := List.length_filter_le _ _
      have hpre : (count + 1) + (others.filter
          (fun j => (IoU (dets.getD i0 default) (dets.getD j default)).le it)).length
          ≤ (keep.set count i0).length := by
        simp only [List.length_set]; omega
      obtain ⟨h1, h2⟩ := ih ⟨keep.set count i0, count + 1, _⟩ hpre
      refine ⟨?_, ?_⟩
      · rw [h1]
        simp only []
        rw [take_set_succ keep count i0 (by omega)]
        simp
      · intro hf
        apply h2
        simp only []
        omega

/-! ## Numbers: order lemmas -/

theorem descBefore_asymm (a b : Flt) (h : descBefore a b = true) : descBefore b a = false := by
  cases a <;> cases b <;> simp_all [descBefore, Flt.gt, Flt.lt, Flt.isNan]
  exact le_of_lt h

theorem descBefore_neg_trans (a b c : Flt) (h1 : descBefore b a = false)
    (h2 : descBefore c b = false) : descBefore c a = false := by
  cases a <;> cases b <;> cases c <;> simp_all [descBefore, Flt.gt, Flt.lt, Flt.isNan]
  exact le_trans h2 h1

theorem gt_ne_nan (a b : Flt) (h : a.gt b = true) : a ≠ nan := by
  cases a <;> cases b <;> simp_all [Flt.gt, Flt.lt]

theorem ge_of_not_descBefore (a b : Flt) (ha : a ≠ nan) (hb : b ≠ nan)
    (h : descBefore b a = false) : a.ge b = true := by
  cases a <;> cases b <;> simp_all [descBefore, Flt.gt, Flt.lt, Flt.ge, Flt.le, Flt.isNan]

/-! ## The descending sort -/

theorem insertDesc_perm (x : Flt × Nat) (l : List (Flt × Nat)) :
    List.Perm (insertDesc x l) (x :: l) := by
  induction l with
  | nil => exact List.Perm.refl _
  | cons y ys ih =>
    unfold insertDesc
    split
    · exact (List.Perm.cons y ih).trans (List.Perm.swap x y ys)
    · exact List.Perm.refl _

theorem sortPairs_perm (l : List (Flt × Nat)) : List.Perm (sortPairs l) l := by
  induction l with
  | nil => exact List.Perm.refl _
  | cons x xs ih => exact (insertDesc_perm x (sortPairs xs)).trans (List.Perm.cons x ih)

theorem insertDesc_sorted (x : Flt × Nat) (l : List (Flt × Nat))
    (h : l.Pairwise (fun p q => descBefore q.1 p.1 = false)) :
    (insertDesc x l).Pairwise (fun p q => descBefore q.1 p.1 = false) := by
  induction l with
  | nil => simp [insertDesc]
  | cons y ys ih =>
    rw [List.pairwise_cons] at h
    unfold insertDesc
    split
    · rename_i hyx
      rw [List.pairwise_cons]
      refine ⟨?_, ih h.2⟩
      intro z hz
      rcases List.mem_cons.1 ((List.Perm.mem_iff (insertDesc_perm x ys)).1 hz) with hz1 | hz1
      · rw [hz1]
        exact descBefore_asymm _ _ hyx
      · exact h.1 z hz1
    · rename_i hyx
      have hyx' : descBefore y.1 x.1 = false := by simpa using hyx
      rw [List.pairwise_cons]
      refine ⟨?_, List.pairwise_cons.2 h⟩
      intro z hz
      rcases List.mem_cons.1 hz with hz1 | hz1
      · rw [hz1]; exact hyx'
      · exact descBefore_neg_trans _ _ _ hyx' (h.1 z hz1)

theorem sortPairs_sorted (l : List (Flt × Nat)) :
    (sortPairs l).Pairwise (fun p q => descBefore q.1 p.1 = false) := by
  induction l with
  | nil => simp [sortPairs]
  | cons x xs ih => exact insertDesc_sorted x _ ih

theorem torchSort_perm (v : List Flt) : List.Perm (torchSort v).2 (List.range v.length) := by
  unfold torchSort
  have h := (sortPairs_perm (v.zip (List.range v.length))).map Prod.snd
  rw [List.map_snd_zip _ _ (by simp)] at h
  exact h

theorem torchSort_length (v : List Flt) : (torchSort v).2.length = v.length := by
  simpa using (torchSort_perm v).length_eq

theorem torchSort_lt (v : List Flt) (i : Nat) (h : i ∈ (torchSort v).2) : i < v.length := by
  simpa using (List.Perm.mem_iff (torchSort_perm v)).1 h

theorem torchSort_nodup (v : List Flt) : (torchSort v).2.Nodup :=
  (List.Perm.nodup_iff (torchSort_perm v)).2 (List.nodup_range _)

theorem mem_zip_range (v : List Flt) (p : Flt × Nat) (h : p ∈ v.zip (List.range v.length)) :
    v.getD p.2 default = p.1 := by
  obtain ⟨i, hi, rfl⟩ := List.mem_iff_getElem.1 h
  simp only [List.length_zip, List.length_range, min_self] at hi
  simp [List.getD_eq_getElem?_getD, hi]

theorem torchSort_sorted (v : List Flt) :
    (torchSort v).2.Pairwise
      (fun i j => descBefore (v.getD j default) (v.getD i default) = false) := by
  unfold torchSort
  rw [List.pairwise_map]
  refine List.Pairwise.imp_of_mem ?_ (sortPairs_sorted _)
  intro p q hp hq h
  rw [mem_zip_range v p ((List.Perm.mem_iff (sortPairs_perm _)).1 hp),
    mem_zip_range v q ((List.Perm.mem_iff (sortPairs_perm _)).1 hq)]
  exact h

theorem nmsKeep_eq (dets : List Det) (it : Flt) :
    nmsKeep dets it = greedy dets it dets.length (torchSort (dets.map (fun d => d.c4))).2 := by
  have h := (nmsLoop_spec dets it dets.length (nmsInit dets)
    (by simp [nmsInit, torchSort_length])).1
  simpa [nmsKeep, nmsFinal, nmsInit] using h

theorem nmsFinal_indexes (dets : List Det) (it : Flt) : (nmsFinal dets it).indexes = [] := by
  apply (nmsLoop_spec dets it dets.length (nmsInit dets)
    (by simp [nmsInit, torchSort_length])).2
  simp [nmsInit, torchSort_length]

/-! ## The kept positions -/

theorem greedy_sublist (dets : List Det) (it : Flt) :
    ∀ (fuel : Nat) (l : List Nat), List.Sublist (greedy dets it fuel l) l := by
  intro fuel
  induction fuel with
  | zero => intro l; simp [greedy]
  | succ f ih =>
    intro l
    cases l with
    | nil => simp [greedy]
    | cons i0 others =>
      simp only [greedy]
      exact List.Sublist.cons₂ i0 ((ih _).trans (List.filter_sublist _))

theorem greedy_pairwise (dets : List Det) (it : Flt) :
    ∀ (fuel : Nat) (l : List Nat), (greedy dets it fuel l).Pairwise
      (fun i j => (IoU (dets.getD i default) (dets.getD j default)).le it = true) := by
  intro fuel
  induction fuel with
  | zero => intro l; simp [greedy]
  | succ f ih =>
    intro l
    cases l with
    | nil => simp [greedy]
    | cons i0 others =>
      simp only [greedy]
      rw [List.pairwise_cons]
      refine ⟨?_, ih _⟩
      intro j hj
      have hj1 := (greedy_sublist dets it f _).subset hj
      exact (List.mem_filter.1 hj1).2

theorem greedy_complete (dets : List Det) (it : Flt) :
    ∀ (fuel : Nat) (l : List Nat), l.length ≤ fuel → ∀ j ∈ l, j ∉ greedy dets it fuel l →
      ∃ i ∈ greedy dets it fuel l, List.Sublist [i, j] l ∧
        (IoU (dets.getD i default) (dets.getD j default)).le it = false := by
  intro fuel
  induction fuel with
  | zero =>
    intro l hl j hj
    have : l = [] := List.length_eq_zero.1 (Nat.le_zero.1 hl)
    simp [this] at hj
  | succ f ih =>
    intro l hl j hj hnot
    cases l with
    | nil => simp at hj
    | cons i0 others =>
      simp only [greedy, List.mem_cons, not_or] at hnot
      have hjo : j ∈ others := by
        rcases List.mem_cons.1 hj with h | h
        · exact absurd h hnot.1
        · exact h
      by_cases hle : (IoU (dets.getD i0 default) (dets.getD j default)).le it = true
      · have hjf : j ∈ others.filter
            (fun j => (IoU (dets.getD i0 default) (dets.getD j default)).le it) :=
          List.mem_filter.2 ⟨hjo, hle⟩
        have hlen : (others.filter
            (fun j => (IoU (dets.getD i0 default) (dets.getD j default)).le it)).length ≤ f := by
          have := List.length_filter_le
            (fun j => (IoU (dets.getD i0 default) (dets.getD j default)).le it) others
          simp only [List.length_cons] at hl
          omega
        obtain ⟨i, hi, hsub, hiou⟩ := ih _ hlen j hjf hnot.2
        refine ⟨i, ?_, ?_, hiou⟩
        · simp only [greedy]; exact List.mem_cons_of_mem _ hi
        · exact (hsub.trans (List.filter_sublist _)).trans (List.sublist_cons_self _ _)
      · refine ⟨i0, ?_, ?_, ?_⟩
        · simp [greedy]
        · exact List.Sublist.cons₂ i0 (List.singleton_sublist.2 hjo)
        · simpa using hle

theorem greedy_head (dets : List Det) (it : Flt) (fuel i0 : Nat) (others : List Nat) :
    greedy dets it (fuel + 1) (i0 :: others) =
      i0 :: greedy dets it fuel
        (others.filter (fun j => (IoU (dets.getD i0 default) (dets.getD j default)).le it)) :=
  rfl

/-! ## Symmetry of the IoU -/

theorem max_fin_comm (x y : ℚ) : Flt.max (fin x) (fin y) = Flt.max (fin y) (fin x) := by
  unfold Flt.max Flt.lt
  by_cases h1 : x < y <;> by_cases h2 : y < x <;> simp [h1, h2]
  · exact absurd h2 (not_lt.2 (le_of_lt h1))
  · exact le_antisymm (not_lt.1 h2) (not_lt.1 h1)

theorem min_fin_comm (x y : ℚ) : Flt.min (fin x) (fin y) = Flt.min (fin y) (fin x) := by
  unfold Flt.min Flt.lt
  by_cases h1 : x < y <;> by_cases h2 : y < x <;> simp [h1, h2]
  · exact absurd h2 (not_lt.2 (le_of_lt h1))
  · exact le_antisymm (not_lt.1 h2) (not_lt.1 h1)

theorem add_fin_comm (a b : Flt) : a.add b = b.add a := by
  cases a <;> cases b <;> simp [Flt.add, add_comm]

theorem area_fin (d : Det) (h : area d ≠ nan) :
    ∃ x0 x1 x2 x3, d.c0 = fin x0 ∧ d.c1 = fin x1 ∧ d.c2 = fin x2 ∧ d.c3 = fin x3 := by
  obtain ⟨c0, c1, c2, c3, c4, c5⟩ := d
  cases c0 <;> cases c1 <;> cases c2 <;> cases c3 <;>
    simp_all [area, Flt.sub, Flt.mul]

theorem IoU_areas (a b : Det) (h : IoU a b ≠ nan) : area a ≠ nan ∧ area b ≠ nan := by
  unfold IoU at h
  generalize overlap a b = o at h
  cases ha : area a <;> cases hb : area b <;> cases o <;>
    simp_all [Flt.add, Flt.sub, Flt.div]

theorem overlap_symm (a b : Det) (ha : area a ≠ nan) (hb : area b ≠ nan) :
    overlap b a = overlap a b := by
  obtain ⟨a0, a1, a2, a3, e0, e1, e2, e3⟩ := area_fin a ha
  obtain ⟨b0, b1, b2, b3, f0, f1, f2, f3⟩ := area_fin b hb
  unfold overlap
  simp only [e0, e1, e2, e3, f0, f1, f2, f3]
  rw [max_fin_comm b0 a0, max_fin_comm b1 a1, min_fin_comm b2 a2, min_fin_comm b3 a3]

theorem IoU_symm (a b : Det) (h : IoU a b ≠ nan) : IoU b a = IoU a b := by
  obtain ⟨ha, hb⟩ := IoU_areas a b h
  unfold IoU
  rw [overlap_symm a b ha hb, add_fin_comm (area b) (area a)]

theorem le_ne_nan (a b : Flt) (h : a.le b = true) : a ≠ nan := by
  cases a <;> cases b <;> simp_all [Flt.le]

theorem IoU_le_symm (a b : Det) (it : Flt) (h : (IoU a b).le it = true) :
    (IoU b a).le it = true := by
  rw [IoU_symm a b (le_ne_nan _ _ h)]
  exact h

/-! ## The output of one image -/

theorem nms_eq (dets : List Det) (it : Flt) :
    nms dets it = (greedy dets it dets.length (torchSort (dets.map (fun d => d.c4))).2).map
      (fun i => dets.getD i default) := by
  unfold nms
  rw [nmsKeep_eq]
  rfl

theorem nmsKeep_lt (dets : List Det) (it : Flt) (i : Nat) (h : i ∈ nmsKeep dets it) :
    i < dets.length := by
  rw [nmsKeep_eq] at h
  simpa using torchSort_lt _ i ((greedy_sublist dets it _ _).subset h)

theorem nms_pairwise (dets : List Det) (it : Flt) :
    (nms dets it).Pairwise (fun a b => (IoU a b).le it = true) := by
  rw [nms_eq, List.pairwise_map]
  exact greedy_pairwise dets it _ _

theorem c4_getD (dets : List Det) (j : Nat) :
    (dets.map (fun d => d.c4)).getD j default = (dets.getD j default).c4 := by
  by_cases h : j < dets.length
  · simp [List.getD_eq_getElem?_getD, h]
  · have h1 : dets.length ≤ j := Nat.le_of_not_lt h
    simp [List.getD_eq_getElem?_getD, List.getElem?_eq_none, h1]
    rfl

theorem getD_mem (dets : List Det) (j : Nat) (h : j < dets.length) :
    dets.getD j default ∈ dets := by
  simp [List.getD_eq_getElem?_getD, h]

theorem kept_sorted (dets : List Det) (it : Flt) (hn : ∀ d ∈ dets, d.c4 ≠ nan) :
    (nmsKeep dets it).Pairwise
      (fun i j => (dets.getD i default).c4.ge (dets.getD j default).c4 = true) := by
  have hs := (torchSort_sorted (dets.map (fun d => d.c4))).sublist
    (greedy_sublist dets it dets.length _)
  rw [← nmsKeep_eq] at hs
  refine List.Pairwise.imp_of_mem ?_ hs
  intro i j hi hj h
  rw [c4_getD, c4_getD] at h
  exact ge_of_not_descBefore _ _ (hn _ (getD_mem dets i (nmsKeep_lt dets it i hi)))
    (hn _ (getD_mem dets j (nmsKeep_lt dets it j hj))) h

theorem nms_sorted (dets : List Det) (it : Flt) (hn : ∀ d ∈ dets, d.c4 ≠ nan) :
    (nms dets it).Pairwise (fun a b => a.c4.ge b.c4 = true) := by
  unfold nms index_select
  rw [List.pairwise_map]
  exact kept_sorted dets it hn

theorem nms_ne_nil (dets : List Det) (it : Flt) (h : dets ≠ []) : nms dets it ≠ [] := by
  rw [nms_eq]
  have hlen := torchSort_length (dets.map (fun d => d.c4))
  cases hd : dets with
  | nil => exact absurd hd h
  | cons d ds =>
    rw [hd] at hlen
    cases hs : (torchSort ((d :: ds).map (fun d => d.c4))).2 with
    | nil => rw [hs] at hlen; simp at hlen
    | cons i0 others => simp [greedy]

theorem mem_detsOf (pred : List Row) (st : Flt) (d : Det) (h : d ∈ detsOf pred st) :
    ∃ r ∈ pred, (rawScore r).gt st = true ∧ d = rowToDet r := by
  rw [detsOf_eq] at h
  obtain ⟨r, hr, rfl⟩ := List.mem_map.1 h
  obtain ⟨hr1, hr2⟩ := List.mem_filter.1 hr
  exact ⟨r, hr1, hr2, rfl⟩

theorem detsOf_score_ne_nan (pred : List Row) (st : Flt) :
    ∀ d ∈ detsOf pred st, d.c4 ≠ nan := by
  intro d hd
  obtain ⟨r, _, hgt, rfl⟩ := mem_detsOf pred st d hd
  exact gt_ne_nan _ _ hgt

theorem mem_nms (dets : List Det) (it : Flt) (d : Det) (h : d ∈ nms dets it) : d ∈ dets := by
  unfold nms index_select at h
  obtain ⟨i, hi, rfl⟩ := List.mem_map.1 h
  exact getD_mem dets i (nmsKeep_lt dets it i hi)

theorem mem_output (preds : List (List Row)) (st it : Flt) (out : List Det)
    (h : out ∈ non_max_suppression preds st it) :
    ∃ pred ∈ preds, scoreFilter pred st ≠ [] ∧ out = nms (detsOf pred st) it := by
  unfold non_max_suppression at h
  obtain ⟨pred, hp, hsome⟩ := List.mem_filterMap.1 h
  refine ⟨pred, hp, ?_⟩
  unfold nmsImage at hsome
  split at hsome
  · exact absurd hsome (by simp)
  · rename_i hlen
    refine ⟨fun hnil => hlen (by simp [hnil]), ?_⟩
    simpa using hsome.symm

theorem le_false_iff (x t : Flt) :
    x.le t = false ↔ (x.gt t = true ∨ x = nan ∨ t = nan) := by
  cases x <;> cases t <;> simp [Flt.le, Flt.gt, Flt.lt]

theorem le_self (x : Flt) (h : x ≠ nan) : x.le x = true := by
  cases x <;> simp_all [Flt.le]

theorem gt_self (x : Flt) : x.gt x = false := by
  cases x <;> simp [Flt.gt, Flt.lt]

theorem kept_complete (dets : List Det) (it : Flt) (hn : ∀ d ∈ dets, d.c4 ≠ nan) (j : Nat)
    (hj : j < dets.length) (hnot : j ∉ nmsKeep dets it) :
    ∃ i ∈ nmsKeep dets it,
      List.Sublist [i, j] (torchSort (dets.map (fun d => d.c4))).2 ∧
      ((dets.getD i default).c4).ge ((dets.getD j default).c4) = true ∧
      (IoU (dets.getD i default) (dets.getD j default)).le it = false := by
  have hmem : j ∈ (torchSort (dets.map (fun d => d.c4))).2 := by
    rw [List.Perm.mem_iff (torchSort_perm _)]
    simpa using hj
  rw [nmsKeep_eq] at hnot
  obtain ⟨i, hi, hsub, hle⟩ := greedy_complete dets it _ _
    (by simp [torchSort_length]) j hmem hnot
  rw [← nmsKeep_eq] at hi
  refine ⟨i, hi, hsub, ?_, hle⟩
  have hs := (torchSort_sorted (dets.map (fun d => d.c4))).sublist hsub
  have hrel : descBefore ((dets.map (fun d => d.c4)).getD j default)
      ((dets.map (fun d => d.c4)).getD i default) = false := by
    rw [List.pairwise_cons] at hs
    exact hs.1 j (List.mem_singleton_self j)
  rw [c4_getD, c4_getD] at hrel
  exact ge_of_not_descBefore _ _ (hn _ (getD_mem _ i (nmsKeep_lt _ it i hi)))
    (hn _ (getD_mem _ j hj)) hrel

/-! ## The maximum of the class scores -/

theorem le_of_le_of_not_le (s m v : Flt) (hv : v ≠ nan) (hm : m ≠ nan)
    (h1 : s.le m = true) (h2 : v.le m = false) : s.le v = true := by
  cases s <;> cases m <;> cases v <;> simp_all [Flt.le]
  exact le_trans h1 (le_of_lt h2)

theorem maxScan_spec (vs : List Flt) :
    ∀ (pre : List Flt) (m : Flt) (idx : Nat), m ≠ nan → pre[idx]? = some m →
      (∀ s ∈ pre, s.le m = true) → (maxScan m idx pre.length vs).1 ≠ nan →
      (pre ++ vs)[(maxScan m idx pre.length vs).2]? = some (maxScan m idx pre.length vs).1
        ∧ ∀ s ∈ pre ++ vs, s.le (maxScan m idx pre.length vs).1 = true := by
  induction vs with
  | nil =>
    intro pre m idx _ hidx hpre _
    simpa [maxScan] using And.intro hidx hpre
  | cons v vs ih =>
    intro pre m idx hm hidx hpre hres
    have hlt : idx < pre.length := by
      by_contra hcon
      rw [List.getElem?_eq_none (Nat.le_of_not_lt hcon)] at hidx
      exact absurd hidx (by simp)
    have happ : pre ++ v :: vs = (pre ++ [v]) ++ vs := by simp
    have hlen : (pre ++ [v]).length = pre.length + 1 := by simp
    by_cases hle : v.le m = true
    · have hstep : maxScan m idx pre.length (v :: vs) = maxScan m idx (pre.length + 1) vs := by
        simp [maxScan, hle]
      rw [hstep, ← hlen] at hres ⊢
      rw [happ]
      apply ih (pre ++ [v]) m idx hm _ _ hres
      · rw [List.getElem?_append_left hlt]; exact hidx
      · intro s hs
        rcases List.mem_append.1 hs with h | h
        · exact hpre s h
        · have : s = v := by simpa using h
          rw [this]; exact hle
    · have hle' : v.le m = false := by simpa using hle
      by_cases hnan : v = nan
      · exfalso
        apply hres
        simp [maxScan, hle', hnan, Flt.isNan, Flt.le]
      · have hisnan : v.isNan = false := by
          cases v with
          | nan => exact absurd rfl hnan
          | fin q => rfl
        have hstep : maxScan m idx pre.length (v :: vs)
            = maxScan v pre.length (pre.length + 1) vs := by
          simp [maxScan, hle', hisnan]
        rw [hstep, ← hlen] at hres ⊢
        rw [happ]
        apply ih (pre ++ [v]) v pre.length hnan _ _ hres
        · simp
        · intro s hs
          rcases List.mem_append.1 hs with h | h
          · exact le_of_le_of_not_le s m v hnan hm (hpre s h) hle'
          · have : s = v := by simpa using h
            rw [this]; exact le_self v hnan

theorem torchMax_spec (r : Row) (h : (torchMax r).1 ≠ nan) :
    (classScores r)[(torchMax r).2]? = some (torchMax r).1
      ∧ ∀ s ∈ classScores r, s.le (torchMax r).1 = true := by
  have hc5 : r.c5 ≠ nan := by
    intro hn
    apply h
    simp [torchMax, classScores, maxScan, hn, Flt.le, Flt.isNan]
  have hstep : torchMax r = maxScan r.c5 0 ([r.c5] : List Flt).length r.rest := by
    simp [torchMax, classScores, maxScan, le_self r.c5 hc5]
  rw [hstep] at h ⊢
  have := maxScan_spec r.rest [r.c5] r.c5 0 hc5 (by simp) (by simpa using le_self r.c5 hc5) h
  simpa [classScores] using this

theorem mul_ne_nan_right (a b : Flt) (h : a.mul b ≠ nan) : b ≠ nan := by
  cases a <;> cases b <;> simp_all [Flt.mul]

theorem corner_right (c w : Flt) : (c.sub (w.div (fin 2))).add w = c.add (w.div (fin 2)) := by
  cases c <;> cases w <;> simp [Flt.sub, Flt.add, Flt.div]
  ring

theorem mem_output_det (preds : List (List Row)) (st it : Flt) (out : List Det)
    (hout : out ∈ non_max_suppression preds st it) (d : Det) (hd : d ∈ out) :
    ∃ pred ∈ preds, ∃ r ∈ pred, (rawScore r).gt st = true ∧ d = rowToDet r := by
  obtain ⟨pred, hp, _, rfl⟩ := mem_output preds st it out hout
  obtain ⟨r, hr, hgt, hdr⟩ := mem_detsOf pred st d (mem_nms _ it d hd)
  exact ⟨pred, hp, r, hr, hgt, hdr⟩

theorem output_iou_le (preds : List (List Row)) (st it : Flt) (out : List Det)
    (hout : out ∈ non_max_suppression preds st it) (i j : Nat) (hi : i < out.length)
    (hj : j < out.length) (hij : i ≠ j) : (IoU out[i] out[j]).le it = true := by
  obtain ⟨pred, _, _, rfl⟩ := mem_output preds st it out hout
  have hp := nms_pairwise (detsOf pred st) it
  rcases Nat.lt_or_gt_of_ne hij with h | h
  · exact List.pairwise_iff_getElem.1 hp i j hi hj h
  · exact IoU_le_symm _ _ it (List.pairwise_iff_getElem.1 hp j i hj hi h)

/-! ## Properties of non_max_suppression -/

/-- C1: any two distinct detections of a list returned by `non_max_suppression` for an
image have `IoU(a, b) <= iou_thresh`, where `IoU(a, b)` is
`overlap / (area(a) + area(b) - overlap)`. -/
theorem C1_no_overlap (preds : List (List Row)) (st it : Flt) (out : List Det)
    (hout : out ∈ non_max_suppression preds st it) (i j : Nat) (hi : i < out.length)
    (hj : j < out.length) (hij : i ≠ j) : (IoU out[i] out[j]).le it = true :=
  output_iou_le preds st it out hout i j hi hj hij

/-- Witness of C1: the two detections returned for two disjoint boxes. -/
theorem C1_no_overlap_witness :
    [rowToDet (mkRow 50 50 10 10 1 0 (9 / 10)), rowToDet (mkRow 5 5 10 10 1 (6 / 10) 0)]
        ∈ non_max_suppression [disjointPair] half half
      ∧ (IoU (rowToDet (mkRow 50 50 10 10 1 0 (9 / 10)))
          (rowToDet (mkRow 5 5 10 10 1 (6 / 10) 0))).le half = true :=
  ⟨by decide!,
    C1_no_overlap [disjointPair] half half
      [rowToDet (mkRow 50 50 10 10 1 0 (9 / 10)), rowToDet (mkRow 5 5 10 10 1 (6 / 10) 0)]
      (by decide!) 0 1 (by decide) (by decide) (by decide)⟩

/-- C2: the detections of a list returned by `non_max_suppression` stand in non-increasing
order of their score column: for `i < j`, `score(kept[i]) >= score(kept[j])`. -/
theorem C2_score_order (preds : List (List Row)) (st it : Flt) (out : List Det)
    (hout : out ∈ non_max_suppression preds st it) (i j : Nat) (hij : i < j)
    (hj : j < out.length) :
    (out[i].c4).ge (out[j].c4) = true := by
  obtain ⟨pred, _, _, rfl⟩ := mem_output preds st it out hout
  have hp := nms_sorted (detsOf pred st) it (detsOf_score_ne_nan pred st)
  exact List.pairwise_iff_getElem.1 hp i j (Nat.lt_trans hij hj) hj hij

/-- Witness of C2: scores 0.9 then 0.6 in the list returned for two disjoint boxes. -/
theorem C2_score_order_witness :
    [rowToDet (mkRow 50 50 10 10 1 0 (9 / 10)), rowToDet (mkRow 5 5 10 10 1 (6 / 10) 0)]
        ∈ non_max_suppression [disjointPair] half half
      ∧ ((rowToDet (mkRow 50 50 10 10 1 0 (9 / 10))).c4).ge
          ((rowToDet (mkRow 5 5 10 10 1 (6 / 10) 0)).c4) = true :=
  ⟨by decide!,
    C2_score_order [disjointPair] half half
      [rowToDet (mkRow 50 50 10 10 1 0 (9 / 10)), rowToDet (mkRow 5 5 10 10 1 (6 / 10) 0)]
      (by decide!) 0 1 (by decide) (by decide)⟩

/-- C3, as stated, fails: in the image `zeroPair` the second candidate passes the score
filter and is not kept, and its IoU with the only kept detection is NaN, which is not
greater than `iou_thresh`. -/
theorem C3_counterexample :
    1 < (detsOf zeroPair half).length ∧ 1 ∉ nmsKeep (detsOf zeroPair half) half ∧
      ∀ i ∈ nmsKeep (detsOf zeroPair half) half,
        (IoU ((detsOf zeroPair half).getD i default)
          ((detsOf zeroPair half).getD 1 default)).gt half = false := by
  decide!

/-- C3, amended: a candidate at position `j` of the filtered array that is not kept
fails the test `IoU <= iou_thresh` against a kept detection `i` that stands before it in
the descending order and has a score `>=` its own; failing the test means that the IoU
is greater than `iou_thresh` or that the IoU or `iou_thresh` is NaN. -/
theorem C3_maximal (pred : List Row) (st it : Flt) (j : Nat)
    (hj : j < (detsOf pred st).length) (hnot : j ∉ nmsKeep (detsOf pred st) it) :
    ∃ i ∈ nmsKeep (detsOf pred st) it,
      List.Sublist [i, j] (torchSort ((detsOf pred st).map (fun d => d.c4))).2 ∧
      (((detsOf pred st).getD i default).c4).ge (((detsOf pred st).getD j default).c4) = true ∧
      (IoU ((detsOf pred st).getD i default) ((detsOf pred st).getD j default)).le it = false ∧
      ((IoU ((detsOf pred st).getD i default) ((detsOf pred st).getD j default)).gt it = true
        ∨ IoU ((detsOf pred st).getD i default) ((detsOf pred st).getD j default) = nan
        ∨ it = nan) := by
  obtain ⟨i, hi, hsub, hge, hle⟩ := kept_complete (detsOf pred st) it
    (detsOf_score_ne_nan pred st) j hj hnot
  exact ⟨i, hi, hsub, hge, hle, (le_false_iff _ _).1 hle⟩

/-- Witness of C3: in `zeroPair` the dropped second candidate fails the test against
the kept first one. -/
theorem C3_maximal_witness :
    ∃ i ∈ nmsKeep (detsOf zeroPair half) half,
      List.Sublist [i, 1] (torchSort ((detsOf zeroPair half).map (fun d => d.c4))).2 ∧
      (((detsOf zeroPair half).getD i default).c4).ge
        (((detsOf zeroPair half).getD 1 default).c4) = true ∧
      (IoU ((detsOf zeroPair half).getD i default)
        ((detsOf zeroPair half).getD 1 default)).le half = false ∧
      ((IoU ((detsOf zeroPair half).getD i default)
          ((detsOf zeroPair half).getD 1 default)).gt half = true
        ∨ IoU ((detsOf zeroPair half).getD i default)
          ((detsOf zeroPair half).getD 1 default) = nan
        ∨ half = nan) :=
  C3_maximal zeroPair half half 1 (by decide!) (by decide!)

/-- C4, as stated, fails: for the batch of two images `[lowImage, highImage]` the function
returns one list, not two, and the list at index 0 belongs to the image at index 1. -/
theorem C4_counterexample :
    non_max_suppression [lowImage, highImage] half half
        = [[rowToDet (mkRow 5 5 10 10 1 (9 / 10) 0)]]
      ∧ (non_max_suppression [lowImage, highImage] half half).length
        ≠ [lowImage, highImage].length
      ∧ non_max_suppression [lowImage, highImage] half half
        = non_max_suppression [highImage] half half := by
  decide!

/-- C4, amended: `non_max_suppression` returns one detection list for each image that has
a candidate passing the score filter, in batch order, and each returned list is
non-empty; an image none of whose candidates passes is skipped, so at most B lists are
returned, and exactly B, the i-th for the i-th image, when every image has a passing
candidate. -/
theorem C4_batch (preds : List (List Row)) (st it : Flt) :
    non_max_suppression preds st it
        = ((preds.filter (fun pred => pred.any (fun r => (rawScore r).gt st))).map
            (fun pred => nms (detsOf pred st) it))
      ∧ (∀ out ∈ non_max_suppression preds st it, out ≠ [])
      ∧ (non_max_suppression preds st it).length ≤ preds.length
      ∧ ((∀ pred ∈ preds, ∃ r ∈ pred, (rawScore r).gt st = true) →
          non_max_suppression preds st it = preds.map (fun pred => nms (detsOf pred st) it)) := by
  have hany : ∀ pred : List Row,
      ((scoreFilter pred st).length = 0) ↔ pred.any (fun r => (rawScore r).gt st) = false := by
    intro pred
    rw [scoreFilter_eq, List.length_eq_zero, List.filter_eq_nil_iff]
    simp
  have heq : non_max_suppression preds st it
      = ((preds.filter (fun pred => pred.any (fun r => (rawScore r).gt st))).map
          (fun pred => nms (detsOf pred st) it)) := by
    unfold non_max_suppression
    induction preds with
    | nil => rfl
    | cons p ps ih =>
      by_cases h : p.any (fun r => (rawScore r).gt st) = true
      · have h0 : ¬ (scoreFilter p st).length = 0 := by
          rw [hany]; simp [h]
        have hi : nmsImage p st it = some (nms (detsOf p st) it) := by
          unfold nmsImage; rw [if_neg h0]
        simp only [List.filterMap_cons, hi, List.filter_cons, h, if_true, List.map_cons, ih]
      · have h1 : p.any (fun r => (rawScore r).gt st) = false := by simpa using h
        have h0 : (scoreFilter p st).length = 0 := (hany p).2 h1
        have hi : nmsImage p st it = none := by
          unfold nmsImage; rw [if_pos h0]
        simp only [List.filterMap_cons, hi, List.filter_cons, h1, ih]
        simp
  refine ⟨heq, ?_, ?_, ?_⟩
  · intro out hout
    obtain ⟨pred, _, hne, rfl⟩ := mem_output preds st it out hout
    apply nms_ne_nil
    intro hnil
    apply hne
    have hlen : (detsOf pred st).length = (scoreFilter pred st).length := by
      rw [detsOf_eq, scoreFilter_eq, List.length_map]
    rw [hnil] at hlen
    exact List.length_eq_zero.1 hlen.symm
  · rw [heq, List.length_map]
    exact List.length_filter_le _ _
  · intro hall
    rw [heq]
    congr 1
    rw [List.filter_eq_self]
    intro pred hp
    obtain ⟨r, hr, hgt⟩ := hall pred hp
    exact List.any_eq_true.2 ⟨r, hr, hgt⟩

/-- Witness of C4: a batch of two images that both have a passing candidate gives two
lists, the first for the first image. -/
theorem C4_batch_witness :
    non_max_suppression [highImage, disjointPair] half half
      = [nms (detsOf highImage half) half, nms (detsOf disjointPair half) half] :=
  (C4_batch [highImage, disjointPair] half half).2.2.2 (by decide!)

/-- C5: the score filter keeps, in their original order, exactly the candidates whose
score `objectness * max(class scores)` is strictly greater than `score_thresh`; a
candidate whose score equals `score_thresh` is not kept. -/
theorem C5_score_filter (pred : List Row) (st : Flt) :
    scoreFilter pred st = pred.filter (fun r => (r.c4.mul (torchMax r).1).gt st)
      ∧ List.Sublist (scoreFilter pred st) pred
      ∧ (∀ r, r ∈ scoreFilter pred st ↔
          (r ∈ pred ∧ (r.c4.mul (torchMax r).1).gt st = true))
      ∧ (∀ r, r.c4.mul (torchMax r).1 = st → r ∉ scoreFilter pred st) := by
  have h := scoreFilter_eq pred st
  refine ⟨h, ?_, ?_, ?_⟩
  · rw [h]; exact List.filter_sublist _
  · intro r
    rw [h, List.mem_filter]
    rfl
  · intro r hr hmem
    rw [h, List.mem_filter] at hmem
    have h2 : (rawScore r).gt st = true := hmem.2
    unfold rawScore at h2
    rw [hr, gt_self] at h2
    exact absurd h2 (by simp)

/-- Witness of C5: the candidate of `edgeImage` has score exactly 0.5 and is not kept by
the filter with threshold 0.5. -/
theorem C5_score_filter_witness :
    mkRow 5 5 10 10 1 (1 / 2) 0 ∉ scoreFilter edgeImage half :=
  (C5_score_filter edgeImage half).2.2.2 (mkRow 5 5 10 10 1 (1 / 2) 0) (by decide!)

/-- C6, as stated, fails: on entry to the loop for the detections of `zeroPair` the
remaining positions are `[0, 1]`; one pass removes position 1 although its IoU with the
selected detection is not greater than `iou_thresh` (it is NaN). -/
theorem C6_counterexample :
    (nmsInit (detsOf zeroPair half)).indexes = [0, 1]
      ∧ 1 ∉ (nmsBody (detsOf zeroPair half) ((detsOf zeroPair half).map area) half
          (nmsInit (detsOf zeroPair half))).indexes
      ∧ (IoU ((detsOf zeroPair half).getD 0 default)
          ((detsOf zeroPair half).getD 1 default)).gt half = false
      ∧ IoU ((detsOf zeroPair half).getD 0 default)
          ((detsOf zeroPair half).getD 1 default) = nan := by
  decide!

/-- C6, amended: one pass of the loop with selected position `i0` keeps, in their order,
exactly the other remaining positions whose IoU with the selected detection passes the
test `IoU <= iou_thresh`; a position is removed exactly when the test fails, that is when
the IoU is greater than `iou_thresh` or the IoU or `iou_thresh` is NaN; an IoU equal to
a (non-NaN) `iou_thresh` survives. -/
theorem C6_loop_filter (dets : List Det) (it : Flt) (keep : List Nat) (count i0 : Nat)
    (others : List Nat) :
    (nmsBody dets (dets.map area) it ⟨keep, count, i0 :: others⟩).indexes
        = others.filter (fun j => (IoU (dets.getD i0 default) (dets.getD j default)).le it)
      ∧ List.Sublist
          (nmsBody dets (dets.map area) it ⟨keep, count, i0 :: others⟩).indexes others
      ∧ (∀ j ∈ others,
          (j ∉ (nmsBody dets (dets.map area) it ⟨keep, count, i0 :: others⟩).indexes ↔
            ((IoU (dets.getD i0 default) (dets.getD j default)).gt it = true
              ∨ IoU (dets.getD i0 default) (dets.getD j default) = nan ∨ it = nan)))
      ∧ (∀ j ∈ others, it ≠ nan → IoU (dets.getD i0 default) (dets.getD j default) = it →
          j ∈ (nmsBody dets (dets.map area) it ⟨keep, count, i0 :: others⟩).indexes) := by
  rw [nmsBody_cons]
  refine ⟨rfl, List.filter_sublist _, ?_, ?_⟩
  · intro j hj
    rw [← le_false_iff]
    simp only [List.mem_filter, hj, true_and]
    simp
  · intro j hj hne heq
    simp only [List.mem_filter, hj, true_and]
    rw [heq]
    exact le_self it hne

/-- Witness of C6: for the detections of `disjointPair` the pass that selects position 1
keeps position 0, whose IoU with it is 0. -/
theorem C6_loop_filter_witness :
    (nmsBody (detsOf disjointPair half) ((detsOf disjointPair half).map area) half
        ⟨[0, 0], 0, [1, 0]⟩).indexes = [0] := by
  rw [(C6_loop_filter (detsOf disjointPair half) half [0, 0] 0 1 [0]).1]
  decide!

/-- C7, as stated, fails: the two candidates of `zeroPair` pass the score filter and have
the same zero-area box; the IoU of the pair is NaN, not 0, and only the first of the two
detections is in the output. -/
theorem C7_counterexample :
    detsOf zeroPair half
        = [rowToDet (mkRow 0 0 0 0 1 (9 / 10) 0), rowToDet (mkRow 0 0 0 0 1 (6 / 10) 0)]
      ∧ area (rowToDet (mkRow 0 0 0 0 1 (9 / 10) 0)) = fin 0
      ∧ area (rowToDet (mkRow 0 0 0 0 1 (6 / 10) 0)) = fin 0
      ∧ overlap (rowToDet (mkRow 0 0 0 0 1 (9 / 10) 0))
          (rowToDet (mkRow 0 0 0 0 1 (6 / 10) 0)) = fin 0
      ∧ IoU (rowToDet (mkRow 0 0 0 0 1 (9 / 10) 0))
          (rowToDet (mkRow 0 0 0 0 1 (6 / 10) 0)) ≠ fin 0
      ∧ non_max_suppression [zeroPair] half half = [[rowToDet (mkRow 0 0 0 0 1 (9 / 10) 0)]]
      ∧ rowToDet (mkRow 0 0 0 0 1 (6 / 10) 0)
          ∉ [rowToDet (mkRow 0 0 0 0 1 (9 / 10) 0)] := by
  decide!

/-- C7, amended: for every `iou_thresh` and every pair of detections with area 0 and
overlap 0 (zero-area boxes at the same location), the IoU of the pair is the unguarded
quotient 0/0, NaN; it fails the test `IoU <= iou_thresh`; the two detections never stand
together in a list returned by `non_max_suppression`, and the output for an image made of
the two candidates holds exactly one of the two detections. -/
theorem C7_zero_area_pair (a b : Det) (it : Flt) (ha : area a = fin 0) (hb : area b = fin 0)
    (ho : overlap a b = fin 0) :
    IoU a b = nan ∧ (IoU a b).le it = false ∧
      (∀ (preds : List (List Row)) (st : Flt), ∀ out ∈ non_max_suppression preds st it,
        ∀ (i j : Nat) (hi : i < out.length) (hj : j < out.length), i ≠ j →
          ¬ (out[i] = a ∧ out[j] = b)) ∧
      (∀ (r1 r2 : Row) (st : Flt), detsOf [r1, r2] st = [a, b] →
        (non_max_suppression [[r1, r2]] st it = [[a]]
          ∨ non_max_suppression [[r1, r2]] st it = [[b]])) := by
  have hab : IoU a b = nan := by
    simp [IoU, ha, hb, ho, Flt.add, Flt.sub, Flt.div]
  have hba : IoU b a = nan := by
    have ho2 : overlap b a = fin 0 := by
      rw [overlap_symm a b (by rw [ha]; simp) (by rw [hb]; simp)]; exact ho
    simp [IoU, ha, hb, ho2, Flt.add, Flt.sub, Flt.div]
  have hle : (IoU a b).le it = false := by rw [hab]; rfl
  refine ⟨hab, hle, ?_, ?_⟩
  · intro preds st out hout i j hi hj hij hboth
    have h := output_iou_le preds st it out hout i j hi hj hij
    rw [hboth.1, hboth.2, hle] at h
    exact absurd h (by simp)
  · intro r1 r2 st hd
    have hlen : ¬ (scoreFilter [r1, r2] st).length = 0 := by
      have h1 : (detsOf [r1, r2] st).length = (scoreFilter [r1, r2] st).length := by
        rw [detsOf_eq, scoreFilter_eq, List.length_map]
      rw [hd] at h1
      simp only [List.length_cons, List.length_nil] at h1
      omega
    have hout : non_max_suppression [[r1, r2]] st it = [nms [a, b] it] := by
      simp only [non_max_suppression, List.filterMap_cons, nmsImage, hlen, if_false, hd,
        List.filterMap_nil]
    rw [hout, nms_eq]
    by_cases hs : descBefore b.c4 a.c4 = true
    · right
      simp [torchSort, sortPairs, insertDesc, hs, greedy, hba, Flt.le]
    · left
      simp [torchSort, sortPairs, insertDesc, hs, greedy, hab, Flt.le]

/-- Witness of C7: the two detections of the image `zeroPair`, with threshold 0.5. -/
theorem C7_zero_area_pair_witness :
    IoU (rowToDet (mkRow 0 0 0 0 1 (9 / 10) 0)) (rowToDet (mkRow 0 0 0 0 1 (6 / 10) 0)) = nan
      ∧ (IoU (rowToDet (mkRow 0 0 0 0 1 (9 / 10) 0))
          (rowToDet (mkRow 0 0 0 0 1 (6 / 10) 0))).le half = false
      ∧ (non_max_suppression [[mkRow 0 0 0 0 1 (9 / 10) 0, mkRow 0 0 0 0 1 (6 / 10) 0]] half half
            = [[rowToDet (mkRow 0 0 0 0 1 (9 / 10) 0)]]
          ∨ non_max_suppression [[mkRow 0 0 0 0 1 (9 / 10) 0, mkRow 0 0 0 0 1 (6 / 10) 0]]
              half half
            = [[rowToDet (mkRow 0 0 0 0 1 (6 / 10) 0)]]) :=
  have h := C7_zero_area_pair (rowToDet (mkRow 0 0 0 0 1 (9 / 10) 0))
    (rowToDet (mkRow 0 0 0 0 1 (6 / 10) 0)) half (by decide!) (by decide!) (by decide!)
  ⟨h.1, h.2.1, h.2.2.2 (mkRow 0 0 0 0 1 (9 / 10) 0) (mkRow 0 0 0 0 1 (6 / 10) 0) half
    (by decide!)⟩

/-- C8: every detection in the output comes from a raw candidate `(cx, cy, w, h, ...)`
that passes the score filter, and its first four columns are `left = cx - w/2`,
`top = cy - h/2`, `right = left + w = cx + w/2`, `bottom = top + h = cy + h/2`: the
transform is applied once, columns 2 and 3 being computed from the updated columns 0
and 1. -/
theorem C8_center_to_corner (preds : List (List Row)) (st it : Flt) (out : List Det)
    (hout : out ∈ non_max_suppression preds st it) (d : Det) (hd : d ∈ out) :
    ∃ pred ∈ preds, ∃ r ∈ pred, (r.c4.mul (torchMax r).1).gt st = true ∧
      d.c0 = r.c0.sub (r.c2.div (fin 2)) ∧
      d.c1 = r.c1.sub (r.c3.div (fin 2)) ∧
      d.c2 = d.c0.add r.c2 ∧
      d.c3 = d.c1.add r.c3 ∧
      d.c2 = r.c0.add (r.c2.div (fin 2)) ∧
      d.c3 = r.c1.add (r.c3.div (fin 2)) := by
  obtain ⟨pred, hp, r, hr, hgt, rfl⟩ := mem_output_det preds st it out hout d hd
  exact ⟨pred, hp, r, hr, hgt, rfl, rfl, rfl, rfl, corner_right _ _, corner_right _ _⟩

/-- Witness of C8: the single candidate `(5, 5, 10, 10)` of `highImage` becomes the box
`(0, 0, 10, 10)`. -/
theorem C8_center_to_corner_witness :
    ∃ pred ∈ [highImage], ∃ r ∈ pred, (r.c4.mul (torchMax r).1).gt half = true ∧
      (⟨fin 0, fin 0, fin 10, fin 10, fin (9 / 10), fin 0⟩ : Det).c0
        = r.c0.sub (r.c2.div (fin 2)) ∧
      (⟨fin 0, fin 0, fin 10, fin 10, fin (9 / 10), fin 0⟩ : Det).c1
        = r.c1.sub (r.c3.div (fin 2)) ∧
      (⟨fin 0, fin 0, fin 10, fin 10, fin (9 / 10), fin 0⟩ : Det).c2
        = (⟨fin 0, fin 0, fin 10, fin 10, fin (9 / 10), fin 0⟩ : Det).c0.add r.c2 ∧
      (⟨fin 0, fin 0, fin 10, fin 10, fin (9 / 10), fin 0⟩ : Det).c3
        = (⟨fin 0, fin 0, fin 10, fin 10, fin (9 / 10), fin 0⟩ : Det).c1.add r.c3 ∧
      (⟨fin 0, fin 0, fin 10, fin 10, fin (9 / 10), fin 0⟩ : Det).c2
        = r.c0.add (r.c2.div (fin 2)) ∧
      (⟨fin 0, fin 0, fin 10, fin 10, fin (9 / 10), fin 0⟩ : Det).c3
        = r.c1.add (r.c3.div (fin 2)) :=
  C8_center_to_corner [highImage] half half
    [⟨fin 0, fin 0, fin 10, fin 10, fin (9 / 10), fin 0⟩]
    (by decide!) ⟨fin 0, fin 0, fin 10, fin 10, fin (9 / 10), fin 0⟩ (by decide!)

/-- C9: every detection in the output comes from a raw candidate that passes the score
filter; its column 4 is `objectness * m` and its column 5 is `k`, where `m` is the class
score at position `k` of the candidate's original class scores and every class score of
the candidate is `<= m`. -/
theorem C9_score_and_class (preds : List (List Row)) (st it : Flt) (out : List Det)
    (hout : out ∈ non_max_suppression preds st it) (d : Det) (hd : d ∈ out) :
    ∃ pred ∈ preds, ∃ r ∈ pred, ∃ (k : Nat) (m : Flt),
      (classScores r)[k]? = some m ∧
      (∀ s ∈ classScores r, s.le m = true) ∧
      d.c4 = r.c4.mul m ∧
      d.c5 = fin (k : ℚ) := by
  obtain ⟨pred, hp, r, hr, hgt, rfl⟩ := mem_output_det preds st it out hout d hd
  have hm : (torchMax r).1 ≠ nan := mul_ne_nan_right _ _ (gt_ne_nan _ _ hgt)
  obtain ⟨h1, h2⟩ := torchMax_spec r hm
  exact ⟨pred, hp, r, hr, (torchMax r).2, (torchMax r).1, h1, h2, rfl, rfl⟩

/-- Witness of C9: the second candidate of `disjointPair` has class scores `(0, 0.9)`;
its detection has score `1 * 0.9` and class 1. -/
theorem C9_score_and_class_witness :
    ∃ pred ∈ [disjointPair], ∃ r ∈ pred, ∃ (k : Nat) (m : Flt),
      (classScores r)[k]? = some m ∧
      (∀ s ∈ classScores r, s.le m = true) ∧
      (⟨fin 45, fin 45, fin 55, fin 55, fin (9 / 10), fin 1⟩ : Det).c4 = r.c4.mul m ∧
      (⟨fin 45, fin 45, fin 55, fin 55, fin (9 / 10), fin 1⟩ : Det).c5 = fin (k : ℚ) :=
  C9_score_and_class [disjointPair] half half
    [⟨fin 45, fin 45, fin 55, fin 55, fin (9 / 10), fin 1⟩,
      ⟨fin 0, fin 0, fin 10, fin 10, fin (6 / 10), fin 0⟩]
    (by decide!) ⟨fin 45, fin 45, fin 55, fin 55, fin (9 / 10), fin 1⟩ (by decide!)

/-- C10: for non-zero `width` and `height`, the rescale of `main` maps a detection with
left, top, right, bottom `x0, x1, x2, x3` to `x0 * cols / width`, `x1 * rows / height`,
`x2 * cols / width`, `x3 * rows / height`, and leaves the score and the class id
unchanged. -/
theorem C10_rescale (d : Det) (cols rows width height : Int) (hw : width ≠ 0)
    (hh : height ≠ 0) :
    (∀ x : ℚ, d.c0 = fin x →
      (rescale cols rows width height d).left = fin (x * cols / width)) ∧
    (∀ x : ℚ, d.c1 = fin x →
      (rescale cols rows width height d).top = fin (x * rows / height)) ∧
    (∀ x : ℚ, d.c2 = fin x →
      (rescale cols rows width height d).right = fin (x * cols / width)) ∧
    (∀ x : ℚ, d.c3 = fin x →
      (rescale cols rows width height d).bottom = fin (x * rows / height)) ∧
    (rescale cols rows width height d).score = d.c4 ∧
    (∀ k : Nat, d.c5 = fin (k : ℚ) → (rescale cols rows width height d).classID = (k : Int)) := by
  have hw' : (width : ℚ) ≠ 0 := by exact_mod_cast hw
  have hh' : (height : ℚ) ≠ 0 := by exact_mod_cast hh
  refine ⟨?_, ?_, ?_, ?_, rfl, ?_⟩
  · intro x hx; simp [rescale, hx, Flt.mul, Flt.div, Flt.ofInt, hw']
  · intro x hx; simp [rescale, hx, Flt.mul, Flt.div, Flt.ofInt, hh']
  · intro x hx; simp [rescale, hx, Flt.mul, Flt.div, Flt.ofInt, hw']
  · intro x hx; simp [rescale, hx, Flt.mul, Flt.div, Flt.ofInt, hh']
  · intro k hk; simp [rescale, hk, Flt.toInt]

/-- Witness of C10: `left = 10` with `width = 320` and `cols = 640` yields `left = 20`. -/
theorem C10_rescale_witness :
    (rescale 640 480 320 240 ⟨fin 10, fin 10, fin 30, fin 40, fin (9 / 10), fin 0⟩).left
      = fin 20 := by
  have h := (C10_rescale ⟨fin 10, fin 10, fin 30, fin 40, fin (9 / 10), fin 0⟩ 640 480 320 240
    (by decide) (by decide)).1 10 rfl
  rw [h]
  norm_num

/-! ## Termination of the loop -/

theorem nmsBody_indexes (dets : List Det) (areas : List Flt) (it : Flt) (keep : List Nat)
    (count i0 : Nat) (others : List Nat) :
    (nmsBody dets areas it ⟨keep, count, i0 :: others⟩).indexes =
      others.filter (fun j =>
        ((overlap (dets.getD i0 default) (dets.getD j default)).div
          (((areas.getD i0 default).add (areas.getD j default)).sub
            (overlap (dets.getD i0 default) (dets.getD j default)))).le it) := by
  unfold nmsBody
  simp only [List.getD_cons_zero, List.drop_succ_cons, List.drop_zero, zipWith_map_same,
    index_select, List.map_map, Function.comp_def]
  have h := index_select_nonzero_tail
    (fun j => ((overlap (dets.getD i0 default) (dets.getD j default)).div
          (((areas.getD i0 default).add (areas.getD j default)).sub
            (overlap (dets.getD i0 default) (dets.getD j default)))).le it) i0 others
  simp only [index_select, List.map_map, Function.comp_def] at h
  rw [← h]
  rfl

theorem nmsBody_shrinks (dets : List Det) (areas : List Flt) (it : Flt) (s : NmsState)
    (h : s.indexes ≠ []) :
    (nmsBody dets areas it s).indexes.length < s.indexes.length
      ∧ List.Sublist (nmsBody dets areas it s).indexes s.indexes.tail := by
  obtain ⟨keep, count, indexes⟩ := s
  cases indexes with
  | nil => exact absurd rfl h
  | cons i0 others =>
    rw [nmsBody_indexes]
    refine ⟨?_, List.filter_sublist _⟩
    simp only [List.length_cons]
    exact Nat.lt_succ_of_le (List.length_filter_le _ _)

theorem nmsLoop_fuel (dets : List Det) (areas : List Flt) (it : Flt) :
    ∀ (fuel : Nat) (s : NmsState), s.indexes.length ≤ fuel →
      (nmsLoop dets areas it fuel s).indexes = []
        ∧ ∀ fuel2, fuel ≤ fuel2 →
            nmsLoop dets areas it fuel2 s = nmsLoop dets areas it fuel s := by
  intro fuel
  induction fuel with
  | zero =>
    intro s hs
    have hnil : s.indexes = [] := List.length_eq_zero.1 (Nat.le_zero.1 hs)
    refine ⟨by simpa [nmsLoop] using hnil, ?_⟩
    intro fuel2 _
    cases fuel2 with
    | zero => rfl
    | succ k => simp [nmsLoop, hnil]
  | succ f ih =>
    intro s hs
    by_cases hnil : s.indexes = []
    · refine ⟨by simp [nmsLoop, hnil], ?_⟩
      intro fuel2 _
      cases fuel2 with
      | zero => simp [nmsLoop, hnil]
      | succ k => simp [nmsLoop, hnil]
    · have hpos : s.indexes.length > 0 := List.length_pos.2 hnil
      have hlt := (nmsBody_shrinks dets areas it s hnil).1
      have hb : (nmsBody dets areas it s).indexes.length ≤ f := by omega
      obtain ⟨h1, h2⟩ := ih (nmsBody dets areas it s) hb
      refine ⟨by simpa [nmsLoop, hpos] using h1, ?_⟩
      intro fuel2 hf
      cases fuel2 with
      | zero => omega
      | succ k =>
        simp only [nmsLoop, hpos, if_true]
        exact h2 k (by omega)

/-- C11: a pass of the loop body on a non-empty `indexes` leaves a strictly shorter
`indexes`, made of positions that were in its tail (the selected head is removed and no
position is added); the loop therefore exits within `indexes.length` passes, for
arbitrary values of the detections, of the areas and of `iou_thresh`. -/
theorem C11_loop_terminates (dets : List Det) (areas : List Flt) (it : Flt) (s : NmsState) :
    (s.indexes ≠ [] →
        (nmsBody dets areas it s).indexes.length < s.indexes.length
          ∧ List.Sublist (nmsBody dets areas it s).indexes s.indexes.tail)
      ∧ (nmsLoop dets areas it s.indexes.length s).indexes = []
      ∧ (∀ fuel, s.indexes.length ≤ fuel →
          nmsLoop dets areas it fuel s = nmsLoop dets areas it s.indexes.length s) :=
  ⟨nmsBody_shrinks dets areas it s,
    (nmsLoop_fuel dets areas it s.indexes.length s (Nat.le_refl _)).1,
    (nmsLoop_fuel dets areas it s.indexes.length s (Nat.le_refl _)).2⟩

/-- Witness of C11: on entry to the loop for `disjointPair` two positions remain, after
one pass one. -/
theorem C11_loop_terminates_witness :
    (nmsBody (detsOf disjointPair half) ((detsOf disjointPair half).map area) half
        (nmsInit (detsOf disjointPair half))).indexes.length
      < (nmsInit (detsOf disjointPair half)).indexes.length :=
  ((C11_loop_terminates (detsOf disjointPair half) ((detsOf disjointPair half).map area) half
    (nmsInit (detsOf disjointPair half))).1 (by decide!)).1

/-- C12: the lists returned for a concatenated batch are the lists returned for the
first batch followed by the lists returned for the second, with the same thresholds. -/
theorem C12_batch_independent (X Y : List (List Row)) (st it : Flt) :
    non_max_suppression (X ++ Y) st it
      = non_max_suppression X st it ++ non_max_suppression Y st it := by
  unfold non_max_suppression
  exact List.filterMap_append _ _ _

/-- Witness of C12: the batch `[lowImage] ++ [highImage]`. -/
theorem C12_batch_independent_witness :
    non_max_suppression ([lowImage] ++ [highImage]) half half
      = non_max_suppression [lowImage] half half ++ non_max_suppression [highImage] half half :=
  C12_batch_independent [lowImage] [highImage] half half

theorem max_zero_fin (y : ℚ) : Flt.max (fin 0) (fin y) = fin (max 0 y) := by
  unfold Flt.max Flt.lt
  by_cases h : (0 : ℚ) < y
  · simp [h, max_eq_right (le_of_lt h)]
  · simp [h, max_eq_left (not_lt.1 h)]

theorem area_val (d : Det) (x0 x1 x2 x3 : ℚ) (h0 : d.c0 = fin x0) (h1 : d.c1 = fin x1)
    (h2 : d.c2 = fin x2) (h3 : d.c3 = fin x3) :
    area d = fin ((x3 - x1) * (x2 - x0))
      ∧ areaClamped d = fin (max 0 (x2 - x0) * max 0 (x3 - x1)) := by
  unfold area areaClamped
  rw [h0, h1, h2, h3]
  simp [Flt.sub, max_zero_fin, Flt.mul]

/-- C13, as stated, fails: the candidate of `negImage` (width -10, height 10) enters the
loop as the box `(10, 0, 0, 10)`; its precomputed area is -100, not
`max(0, right - left) * max(0, bottom - top) = 0`. -/
theorem C13_counterexample :
    detsOf negImage half = [⟨fin 10, fin 0, fin 0, fin 10, fin (9 / 10), fin 0⟩]
      ∧ (detsOf negImage half).map area = [fin (-100)]
      ∧ (detsOf negImage half).map areaClamped = [fin 0]
      ∧ (detsOf negImage half).map area ≠ (detsOf negImage half).map areaClamped := by
  decide!

/-- C13, amended: the precomputed area of a candidate is the plain product
`(bottom - top) * (right - left)`, without clamping; it equals
`max(0, right - left) * max(0, bottom - top)` when `left <= right` and `top <= bottom`,
and differs from it when exactly one of the two differences is negative or both are. -/
theorem C13_area (dets : List Det) (j : Nat) (x0 x1 x2 x3 : ℚ)
    (h0 : (dets.getD j default).c0 = fin x0) (h1 : (dets.getD j default).c1 = fin x1)
    (h2 : (dets.getD j default).c2 = fin x2) (h3 : (dets.getD j default).c3 = fin x3) :
    (dets.map area).getD j default = fin ((x3 - x1) * (x2 - x0))
      ∧ (x0 ≤ x2 → x1 ≤ x3 →
          (dets.map area).getD j default = areaClamped (dets.getD j default))
      ∧ (x2 < x0 → x3 ≠ x1 →
          (dets.map area).getD j default ≠ areaClamped (dets.getD j default))
      ∧ (x3 < x1 → x2 ≠ x0 →
          (dets.map area).getD j default ≠ areaClamped (dets.getD j default)) := by
  rw [areas_getD]
  obtain ⟨ha, hc⟩ := area_val (dets.getD j default) x0 x1 x2 x3 h0 h1 h2 h3
  rw [ha, hc]
  refine ⟨rfl, ?_, ?_, ?_⟩
  · intro hw hh
    rw [max_eq_right (sub_nonneg.2 hw), max_eq_right (sub_nonneg.2 hh), mul_comm]
  · intro hw hh
    rw [max_eq_left (le_of_lt (sub_neg.2 hw)), zero_mul]
    intro h
    have h2 : (x3 - x1) * (x2 - x0) = 0 := Flt.fin.inj h
    rcases mul_eq_zero.1 h2 with e | e
    · exact hh (sub_eq_zero.1 e)
    · exact absurd (sub_eq_zero.1 e) (ne_of_lt hw)
  · intro hh hw
    rw [max_eq_left (le_of_lt (sub_neg.2 hh)), mul_zero]
    intro h
    have h2 : (x3 - x1) * (x2 - x0) = 0 := Flt.fin.inj h
    rcases mul_eq_zero.1 h2 with e | e
    · exact absurd (sub_eq_zero.1 e) (ne_of_lt hh)
    · exact hw (sub_eq_zero.1 e)

/-- Witness of C13: the box `(10, 0, 0, 10)` of `negImage` has area -100. -/
theorem C13_area_witness :
    ((detsOf negImage half).map area).getD 0 default = fin ((10 - 0) * (0 - 10)) :=
  (C13_area (detsOf negImage half) 0 10 0 0 10 (by decide!) (by decide!) (by decide!)
    (by decide!)).1

/-! ## Ties in the descending sort -/

theorem descBefore_irrefl (a : Flt) : descBefore a a = false := by
  cases a <;> simp [descBefore, Flt.gt, Flt.lt, Flt.isNan]

theorem insertDesc_stable (x : Flt × Nat) (l : List (Flt × Nat))
    (hx : ∀ z ∈ l, x.2 < z.2) (hl : l.Pairwise (fun p q => p.1 = q.1 → p.2 < q.2)) :
    (insertDesc x l).Pairwise (fun p q => p.1 = q.1 → p.2 < q.2) := by
  induction l with
  | nil => simp [insertDesc]
  | cons y ys ih =>
    rw [List.pairwise_cons] at hl
    unfold insertDesc
    split
    · rename_i hyx
      rw [List.pairwise_cons]
      refine ⟨?_, ih (fun z hz => hx z (List.mem_cons_of_mem _ hz)) hl.2⟩
      intro z hz
      rcases List.mem_cons.1 ((List.Perm.mem_iff (insertDesc_perm x ys)).1 hz) with hz1 | hz1
      · intro heq
        rw [hz1] at heq
        rw [heq, descBefore_irrefl] at hyx
        exact absurd hyx (by simp)
      · exact hl.1 z hz1
    · rw [List.pairwise_cons]
      exact ⟨fun z hz _ => hx z hz, List.pairwise_cons.2 hl⟩

theorem sortPairs_stable (l : List (Flt × Nat)) (h : l.Pairwise (fun p q => p.2 < q.2)) :
    (sortPairs l).Pairwise (fun p q => p.1 = q.1 → p.2 < q.2) := by
  induction l with
  | nil => simp [sortPairs]
  | cons x xs ih =>
    rw [List.pairwise_cons] at h
    exact insertDesc_stable x (sortPairs xs)
      (fun z hz => h.1 z ((List.Perm.mem_iff (sortPairs_perm xs)).1 hz)) (ih h.2)

theorem torchSort_stable (v : List Flt) :
    (torchSort v).2.Pairwise (fun i j => v.getD i default = v.getD j default → i < j) := by
  unfold torchSort
  rw [List.pairwise_map]
  have hz : (v.zip (List.range v.length)).Pairwise (fun p q => p.2 < q.2) := by
    have h := List.pairwise_lt_range v.length
    rw [← List.map_snd_zip v (List.range v.length) (by simp), List.pairwise_map] at h
    exact h
  refine List.Pairwise.imp_of_mem ?_ (sortPairs_stable _ hz)
  intro p q hp hq h
  rw [mem_zip_range v p ((List.Perm.mem_iff (sortPairs_perm _)).1 hp),
    mem_zip_range v q ((List.Perm.mem_iff (sortPairs_perm _)).1 hq)]
  exact h

theorem kept_stable (dets : List Det) (it : Flt) :
    (torchSort (dets.map (fun d => d.c4))).2.Pairwise
        (fun i j => (dets.getD i default).c4 = (dets.getD j default).c4 → i < j)
      ∧ (nmsKeep dets it).Pairwise
        (fun i j => (dets.getD i default).c4 = (dets.getD j default).c4 → i < j) := by
  have h : (torchSort (dets.map (fun d => d.c4))).2.Pairwise
      (fun i j => (dets.getD i default).c4 = (dets.getD j default).c4 → i < j) := by
    refine List.Pairwise.imp ?_ (torchSort_stable (dets.map (fun d => d.c4)))
    intro i j hij
    rw [c4_getD, c4_getD] at hij
    exact hij
  refine ⟨h, ?_⟩
  rw [nmsKeep_eq]
  exact h.sublist (greedy_sublist dets it _ _)

/-- C14: in the descending order the loop starts from, and in the list of kept positions
it ends with, two candidates with equal score stand in the order of their positions in
the filtered input array; the output of `non_max_suppression`, a function of its
arguments, lists the kept detections in that order. -/
theorem C14_stable_order (pred : List Row) (st it : Flt) :
    (torchSort ((detsOf pred st).map (fun d => d.c4))).2.Pairwise
        (fun i j => ((detsOf pred st).getD i default).c4
          = ((detsOf pred st).getD j default).c4 → i < j)
      ∧ (nmsKeep (detsOf pred st) it).Pairwise
        (fun i j => ((detsOf pred st).getD i default).c4
          = ((detsOf pred st).getD j default).c4 → i < j)
      ∧ nms (detsOf pred st) it
        = (nmsKeep (detsOf pred st) it).map (fun i => (detsOf pred st).getD i default) :=
  ⟨(kept_stable (detsOf pred st) it).1, (kept_stable (detsOf pred st) it).2, rfl⟩

/-- Witness of C14: the two candidates of `tiePair` have the same score and are returned
in their input order. -/
theorem C14_stable_order_witness :
    nmsKeep (detsOf tiePair half) half = [0, 1]
      ∧ (nmsKeep (detsOf tiePair half) half).Pairwise
        (fun i j => ((detsOf tiePair half).getD i default).c4
          = ((detsOf tiePair half).getD j default).c4 → i < j) :=
  ⟨by decide!, (C14_stable_order tiePair half half).2.1⟩

/-! ## Images whose boxes do not overlap -/

theorem greedy_all (dets : List Det) (it : Flt) :
    ∀ (fuel : Nat) (l : List Nat), l.length ≤ fuel →
      l.Pairwise (fun i j => (IoU (dets.getD i default) (dets.getD j default)).le it = true) →
      greedy dets it fuel l = l := by
  intro fuel
  induction fuel with
  | zero =>
    intro l hl _
    have : l = [] := List.length_eq_zero.1 (Nat.le_zero.1 hl)
    simp [this, greedy]
  | succ f ih =>
    intro l hl hp
    cases l with
    | nil => simp [greedy]
    | cons i0 others =>
      rw [List.pairwise_cons] at hp
      have hf : others.filter
          (fun j => (IoU (dets.getD i0 default) (dets.getD j default)).le it) = others :=
        List.filter_eq_self.2 hp.1
      simp only [greedy, hf]
      rw [ih others (by simpa using hl) hp.2]

theorem map_getD_range (dets : List Det) :
    (List.range dets.length).map (fun i => dets.getD i default) = dets := by
  apply List.ext_getElem
  · simp
  · intro i h1 h2
    simp [List.getD_eq_getElem?_getD, h2]

theorem IoU_disjoint (a b : Det) (x0 x1 x2 x3 y0 y1 y2 y3 : ℚ)
    (a0 : a.c0 = fin x0) (a1 : a.c1 = fin x1) (a2 : a.c2 = fin x2) (a3 : a.c3 = fin x3)
    (b0 : b.c0 = fin y0) (b1 : b.c1 = fin y1) (b2 : b.c2 = fin y2) (b3 : b.c3 = fin y3)
    (hxw : x0 < x2) (hxh : x1 < x3) (hyw : y0 < y2) (hyh : y1 < y3)
    (ho : overlap a b = fin 0) : IoU a b = fin 0 := by
  have hA : 0 < (x3 - x1) * (x2 - x0) := mul_pos (sub_pos.2 hxh) (sub_pos.2 hxw)
  have hB : 0 < (y3 - y1) * (y2 - y0) := mul_pos (sub_pos.2 hyh) (sub_pos.2 hyw)
  have ha : area a = fin ((x3 - x1) * (x2 - x0)) := by
    simp [area, a0, a1, a2, a3, Flt.sub, Flt.mul]
  have hb : area b = fin ((y3 - y1) * (y2 - y0)) := by
    simp [area, b0, b1, b2, b3, Flt.sub, Flt.mul]
  have hne : (x3 - x1) * (x2 - x0) + (y3 - y1) * (y2 - y0) - 0 ≠ 0 := by linarith
  unfold IoU
  rw [ho, ha, hb]
  simp only [Flt.add, Flt.sub, Flt.div, hne, if_false, zero_div]

theorem lt_fin (a b : Flt) (h : a.lt b = true) : ∃ x y : ℚ, a = fin x ∧ b = fin y ∧ x < y := by
  cases a <;> cases b <;> simp_all [Flt.lt]

theorem output_single (pred : List Row) (st it : Flt) (h : detsOf pred st ≠ []) :
    non_max_suppression [pred] st it = [nms (detsOf pred st) it] := by
  have hlen : ¬ (scoreFilter pred st).length = 0 := by
    intro h0
    apply h
    have h1 : (detsOf pred st).length = (scoreFilter pred st).length := by
      rw [detsOf_eq, scoreFilter_eq, List.length_map]
    rw [h0] at h1
    exact List.length_eq_zero.1 h1
  simp only [non_max_suppression, List.filterMap_cons, nmsImage, hlen, if_false,
    List.filterMap_nil]

theorem nms_all_kept (dets : List Det) (it : Flt)
    (hp : ∀ i < dets.length, ∀ j < dets.length, i ≠ j →
      (IoU (dets.getD i default) (dets.getD j default)).le it = true) :
    List.Perm (nms dets it) dets := by
  have hpw : (torchSort (dets.map (fun d => d.c4))).2.Pairwise
      (fun i j => (IoU (dets.getD i default) (dets.getD j default)).le it = true) := by
    refine List.Nodup.pairwise_of_forall_ne (torchSort_nodup _) ?_
    intro i hi j hj hij
    exact hp i (by simpa using torchSort_lt _ i hi) j (by simpa using torchSort_lt _ j hj) hij
  rw [nms_eq, greedy_all dets it _ _ (by simp [torchSort_length]) hpw]
  have h := (torchSort_perm (dets.map (fun d => d.c4))).map (fun i => dets.getD i default)
  rw [List.length_map, map_getD_range] at h
  exact h

/-- C15: when the filtered candidates of an image have boxes of positive width and height
with pairwise overlap 0 and `iou_thresh >= 0`, the NMS output holds every filtered
candidate exactly once, in descending order of score. -/
theorem C15_disjoint_boxes (pred : List Row) (st it : Flt)
    (hpos : ∀ d ∈ detsOf pred st, d.c0.lt d.c2 = true ∧ d.c1.lt d.c3 = true)
    (hdis : ∀ i < (detsOf pred st).length, ∀ j < (detsOf pred st).length, i ≠ j →
      overlap ((detsOf pred st).getD i default) ((detsOf pred st).getD j default) = fin 0)
    (hit : (fin 0).le it = true) :
    List.Perm (nms (detsOf pred st) it) (detsOf pred st)
      ∧ (nms (detsOf pred st) it).Pairwise (fun a b => a.c4.ge b.c4 = true)
      ∧ (detsOf pred st ≠ [] →
          non_max_suppression [pred] st it = [nms (detsOf pred st) it]) := by
  refine ⟨?_, nms_sorted _ it (detsOf_score_ne_nan pred st), output_single pred st it⟩
  apply nms_all_kept
  intro i hi j hj hij
  obtain ⟨hw1, hh1⟩ := hpos _ (getD_mem _ i hi)
  obtain ⟨hw2, hh2⟩ := hpos _ (getD_mem _ j hj)
  obtain ⟨x0, x2, a0, a2, hxw⟩ := lt_fin _ _ hw1
  obtain ⟨x1, x3, a1, a3, hxh⟩ := lt_fin _ _ hh1
  obtain ⟨y0, y2, b0, b2, hyw⟩ := lt_fin _ _ hw2
  obtain ⟨y1, y3, b1, b3, hyh⟩ := lt_fin _ _ hh2
  rw [IoU_disjoint _ _ x0 x1 x2 x3 y0 y1 y2 y3 a0 a1 a2 a3 b0 b1 b2 b3 hxw hxh hyw hyh
    (hdis i hi j hj hij)]
  exact hit

/-- Witness of C15: two disjoint boxes with scores 0.6 and 0.9 are both returned, the
one with score 0.9 first. -/
theorem C15_disjoint_boxes_witness :
    non_max_suppression [disjointPair] half half
        = [[rowToDet (mkRow 50 50 10 10 1 0 (9 / 10)), rowToDet (mkRow 5 5 10 10 1 (6 / 10) 0)]]
      ∧ List.Perm (nms (detsOf disjointPair half) half) (detsOf disjointPair half)
      ∧ (nms (detsOf disjointPair half) half).Pairwise (fun a b => a.c4.ge b.c4 = true) :=
  ⟨by decide!,
    (C15_disjoint_boxes disjointPair half half (by decide!) (by decide!) (by decide!)).1,
    (C15_disjoint_boxes disjointPair half half (by decide!) (by decide!) (by decide!)).2.1⟩

theorem IoU_same_box (a b : Det) (h0 : a.c0 = b.c0) (h1 : a.c1 = b.c1) (h2 : a.c2 = b.c2)
    (h3 : a.c3 = b.c3) (hw : a.c0.lt a.c2 = true) (hh : a.c1.lt a.c3 = true) :
    IoU a b = fin 1 := by
  obtain ⟨x0, x2, a0, a2, hxw⟩ := lt_fin _ _ hw
  obtain ⟨x1, x3, a1, a3, hxh⟩ := lt_fin _ _ hh
  have hW : 0 < x2 - x0 := sub_pos.2 hxw
  have hH : 0 < x3 - x1 := sub_pos.2 hxh
  have hne : (x3 - x1) * (x2 - x0) + (x3 - x1) * (x2 - x0) - (x2 - x0) * (x3 - x1) ≠ 0 := by
    have : 0 < (x2 - x0) * (x3 - x1) := mul_pos hW hH
    nlinarith
  unfold IoU overlap area
  rw [← h0, ← h1, ← h2, ← h3, a0, a1, a2, a3]
  simp only [Flt.max, Flt.min, Flt.lt, lt_self_iff_false, decide_False, Flt.sub, hW, hH,
    decide_True, if_true, Flt.mul, Flt.add, Flt.div, hne, if_false, Bool.false_eq_true]
  congr 1
  field_simp
  ring

theorem one_le_false (it : Flt) (h : it.lt (fin 1) = true) : (fin 1).le it = false := by
  cases it <;> simp_all [Flt.lt, Flt.le]

theorem nms_pair (a b : Det) (it : Flt) (hab : (IoU a b).le it = false)
    (hba : (IoU b a).le it = false) (ha : a.c4 ≠ nan) (hb : b.c4 ≠ nan) (hne : a.c4 ≠ b.c4) :
    (a.c4.gt b.c4 = true ∧ nms [a, b] it = [a]) ∨ (b.c4.gt a.c4 = true ∧ nms [a, b] it = [b]) := by
  rw [nms_eq]
  by_cases hs : descBefore b.c4 a.c4 = true
  · right
    refine ⟨?_, ?_⟩
    · cases hx : a.c4 <;> cases hy : b.c4 <;>
        simp_all [descBefore, Flt.gt, Flt.lt, Flt.isNan]
    · simp [torchSort, sortPairs, insertDesc, hs, greedy, hba]
  · left
    refine ⟨?_, ?_⟩
    · cases hx : a.c4 <;> cases hy : b.c4 <;>
        simp_all [descBefore, Flt.gt, Flt.lt, Flt.isNan]
      exact lt_of_le_of_ne hs (fun h => hne h.symm)
    · simp [torchSort, sortPairs, insertDesc, hs, greedy, hab]

/-- C16: for an image of two candidates that pass the score filter, have the same box of
positive width and height and distinct scores, and for `iou_thresh < 1`, the IoU of the
pair is 1 and the output is exactly the detection with the higher score. -/
theorem C16_identical_boxes (r1 r2 : Row) (st it : Flt) (a b : Det)
    (hd : detsOf [r1, r2] st = [a, b])
    (h0 : a.c0 = b.c0) (h1 : a.c1 = b.c1) (h2 : a.c2 = b.c2) (h3 : a.c3 = b.c3)
    (hw : a.c0.lt a.c2 = true) (hh : a.c1.lt a.c3 = true)
    (hne : a.c4 ≠ b.c4) (hit : it.lt (fin 1) = true) :
    IoU a b = fin 1 ∧
      ((a.c4.gt b.c4 = true ∧ non_max_suppression [[r1, r2]] st it = [[a]])
        ∨ (b.c4.gt a.c4 = true ∧ non_max_suppression [[r1, r2]] st it = [[b]])) := by
  have hab : IoU a b = fin 1 := IoU_same_box a b h0 h1 h2 h3 hw hh
  have hba : IoU b a = fin 1 :=
    IoU_same_box b a h0.symm h1.symm h2.symm h3.symm (by rw [← h0, ← h2]; exact hw)
      (by rw [← h1, ← h3]; exact hh)
  have hsa : a.c4 ≠ nan := detsOf_score_ne_nan [r1, r2] st a (by rw [hd]; simp)
  have hsb : b.c4 ≠ nan := detsOf_score_ne_nan [r1, r2] st b (by rw [hd]; simp)
  refine ⟨hab, ?_⟩
  rw [output_single [r1, r2] st it (by rw [hd]; simp), hd]
  rcases nms_pair a b it (by rw [hab]; exact one_le_false it hit)
    (by rw [hba]; exact one_le_false it hit) hsa hsb hne with h | h
  · left; exact ⟨h.1, by rw [h.2]⟩
  · right; exact ⟨h.1, by rw [h.2]⟩

/-- Witness of C16: the same box with scores 0.9 and 0.6 and `iou_thresh = 0.5` yields only
the detection with score 0.9. -/
theorem C16_identical_boxes_witness :
    non_max_suppression [samePair] half half = [[rowToDet (mkRow 5 5 10 10 1 (9 / 10) 0)]]
      ∧ IoU (rowToDet (mkRow 5 5 10 10 1 (9 / 10) 0))
          (rowToDet (mkRow 5 5 10 10 1 (6 / 10) 0)) = fin 1 :=
  ⟨by decide!,
    (C16_identical_boxes (mkRow 5 5 10 10 1 (9 / 10) 0) (mkRow 5 5 10 10 1 (6 / 10) 0) half half
      (rowToDet (mkRow 5 5 10 10 1 (9 / 10) 0)) (rowToDet (mkRow 5 5 10 10 1 (6 / 10) 0))
      (by decide!) (by decide!) (by decide!) (by decide!) (by decide!) (by decide!) (by decide!)
      (by decide!) (by decide!)).1⟩

theorem nms_head_max (dets : List Det) (it : Flt) (hn : ∀ d ∈ dets, d.c4 ≠ nan)
    (hne : dets ≠ []) :
    ∃ d rest, nms dets it = d :: rest ∧ d ∈ dets ∧ ∀ e ∈ dets, d.c4.ge e.c4 = true := by
  have hlen := torchSort_length (dets.map (fun d => d.c4))
  have hsorted := torchSort_sorted (dets.map (fun d => d.c4))
  have hperm := torchSort_perm (dets.map (fun d => d.c4))
  have hlt := torchSort_lt (dets.map (fun d => d.c4))
  rw [nms_eq]
  rw [List.length_map] at hlen hperm
  obtain ⟨n, hn1⟩ : ∃ n, dets.length = n + 1 :=
    Nat.exists_eq_succ_of_ne_zero (fun h => hne (List.length_eq_zero.1 h))
  cases hs : (torchSort (dets.map (fun d => d.c4))).2 with
  | nil => rw [hs] at hlen; simp [hn1] at hlen
  | cons i0 others =>
    rw [hs] at hsorted hperm hlt
    have hi0 : i0 < dets.length := by simpa using hlt i0 (List.mem_cons_self _ _)
    rw [hn1, greedy_head, List.map_cons]
    refine ⟨_, _, rfl, getD_mem dets i0 hi0, ?_⟩
    intro e he
    obtain ⟨j, hj, rfl⟩ := List.mem_iff_getElem.1 he
    have hjmem : j ∈ i0 :: others := (List.Perm.mem_iff hperm).2 (List.mem_range.2 hj)
    have hej : dets[j] = dets.getD j default := by
      simp [List.getD_eq_getElem?_getD, hj]
    rw [hej]
    rcases List.mem_cons.1 hjmem with h | h
    · rw [h]
      have := hn _ (getD_mem dets i0 hi0)
      cases hc : (dets.getD i0 default).c4 with
      | nan => exact absurd hc this
      | fin q => simp [Flt.ge, Flt.le]
    · have hrel := (List.pairwise_cons.1 hsorted).1 j h
      rw [c4_getD, c4_getD] at hrel
      exact ge_of_not_descBefore _ _ (hn _ (getD_mem dets i0 hi0))
        (hn _ (getD_mem dets j hj)) hrel

theorem nms_singleton (d : Det) (it : Flt) : nms [d] it = [d] := by
  rw [nms_eq]
  simp [torchSort, sortPairs, insertDesc, greedy]

/-- C17: for an image with a candidate that passes the score filter, the output is one
non-empty list whose first detection is the detection of a filtered candidate and has a
score `>=` the score of every filtered candidate; when exactly one candidate passes, the
output is exactly that candidate in corner form with its combined score and class id. -/
theorem C17_first_is_max (pred : List Row) (st it : Flt)
    (h : ∃ r ∈ pred, (r.c4.mul (torchMax r).1).gt st = true) :
    (∃ d rest, non_max_suppression [pred] st it = [d :: rest] ∧ d ∈ detsOf pred st ∧
        ∀ r ∈ pred, (r.c4.mul (torchMax r).1).gt st = true →
          d.c4.ge (r.c4.mul (torchMax r).1) = true)
      ∧ (∀ r, scoreFilter pred st = [r] →
          non_max_suppression [pred] st it =
            [[⟨r.c0.sub (r.c2.div (fin 2)), r.c1.sub (r.c3.div (fin 2)),
              (r.c0.sub (r.c2.div (fin 2))).add r.c2, (r.c1.sub (r.c3.div (fin 2))).add r.c3,
              r.c4.mul (torchMax r).1, fin ((torchMax r).2 : ℚ)⟩]]) := by
  have hmem : ∀ r ∈ pred, (rawScore r).gt st = true → rowToDet r ∈ detsOf pred st := by
    intro r hr hgt
    rw [detsOf_eq]
    exact List.mem_map.2 ⟨r, List.mem_filter.2 ⟨hr, hgt⟩, rfl⟩
  have hne : detsOf pred st ≠ [] := by
    obtain ⟨r, hr, hgt⟩ := h
    exact List.ne_nil_of_mem (hmem r hr hgt)
  refine ⟨?_, ?_⟩
  · obtain ⟨d, rest, hd, hdm, hmax⟩ :=
      nms_head_max (detsOf pred st) it (detsOf_score_ne_nan pred st) hne
    refine ⟨d, rest, by rw [output_single pred st it hne, hd], hdm, ?_⟩
    intro r hr hgt
    exact hmax _ (hmem r hr hgt)
  · intro r hr
    have hd : detsOf pred st = [rowToDet r] := by
      rw [detsOf_eq, ← scoreFilter_eq, hr]
      rfl
    rw [output_single pred st it hne, hd, nms_singleton]
    rfl

/-- Witness of C17: the image `highImage` has one candidate, of score 0.9; the output is
that candidate as the box `(0, 0, 10, 10)` with score 0.9 and class 0. -/
theorem C17_first_is_max_witness :
    non_max_suppression [highImage] half half
      = [[⟨fin 0, fin 0, fin 10, fin 10, fin (9 / 10), fin 0⟩]] := by
  have h := (C17_first_is_max highImage half half
    ⟨mkRow 5 5 10 10 1 (9 / 10) 0, by decide!, by decide!⟩).2
    (mkRow 5 5 10 10 1 (9 / 10) 0) (by decide!)
  rw [h]
  decide!

theorem corner_le (c w : Flt) (hc : c ≠ nan) (hw : (fin 0).le w = true) :
    (c.sub (w.div (fin 2))).le ((c.sub (w.div (fin 2))).add w) = true := by
  cases c <;> cases w <;> simp_all [Flt.sub, Flt.add, Flt.div, Flt.le]

theorem corner_not_lt (c w : Flt) (hw : (fin 0).le w = true) :
    ((c.sub (w.div (fin 2))).add w).lt (c.sub (w.div (fin 2))) = false := by
  cases c <;> cases w <;> simp_all [Flt.sub, Flt.add, Flt.div, Flt.le, Flt.lt]

/-- C18: for a tensor of raw candidates whose centre columns are numbers and whose width
and height are `>= 0`, every row left by the center-to-corner transform, and every
detection that enters the loop, has `left <= right` and `top <= bottom`. -/
theorem C18_corner_order (pred : List Row)
    (h : ∀ r ∈ pred, r.c0 ≠ nan ∧ r.c1 ≠ nan
      ∧ (fin 0).le r.c2 = true ∧ (fin 0).le r.c3 = true) :
    (∀ r ∈ toCorner pred, r.c0.le r.c2 = true ∧ r.c1.le r.c3 = true)
      ∧ (∀ st, ∀ d ∈ detsOf pred st, d.c0.le d.c2 = true ∧ d.c1.le d.c3 = true) := by
  refine ⟨?_, ?_⟩
  · intro r hr
    rw [toCorner_eq] at hr
    obtain ⟨r0, hr0, rfl⟩ := List.mem_map.1 hr
    obtain ⟨h0, h1, h2, h3⟩ := h r0 hr0
    exact ⟨corner_le _ _ h0 h2, corner_le _ _ h1 h3⟩
  · intro st d hd
    obtain ⟨r0, hr0, _, rfl⟩ := mem_detsOf pred st d hd
    obtain ⟨h0, h1, h2, h3⟩ := h r0 hr0
    exact ⟨corner_le _ _ h0 h2, corner_le _ _ h1 h3⟩

/-- Witness of C18: the candidate `(5, 5, 10, 10)` of `highImage` becomes a detection with
`left <= right` and `top <= bottom`. -/
theorem C18_corner_order_witness :
    (rowToDet (mkRow 5 5 10 10 1 (9 / 10) 0)).c0.le
        (rowToDet (mkRow 5 5 10 10 1 (9 / 10) 0)).c2 = true
      ∧ (rowToDet (mkRow 5 5 10 10 1 (9 / 10) 0)).c1.le
        (rowToDet (mkRow 5 5 10 10 1 (9 / 10) 0)).c3 = true :=
  (C18_corner_order highImage (by decide!)).2 half
    (rowToDet (mkRow 5 5 10 10 1 (9 / 10) 0)) (by decide!)

/-! ## Bounds of the buffer and of the positions -/

theorem nmsBody_inv (dets : List Det) (it : Flt) (s : NmsState) (hne : s.indexes ≠ [])
    (h : s.keep.length = dets.length ∧ s.count + s.indexes.length ≤ dets.length
      ∧ (s.keep.take s.count ++ s.indexes).Nodup
      ∧ ∀ i ∈ s.keep.take s.count ++ s.indexes, i < dets.length) :
    (nmsBody dets (dets.map area) it s).keep.length = dets.length
      ∧ (nmsBody dets (dets.map area) it s).count
          + (nmsBody dets (dets.map area) it s).indexes.length ≤ dets.length
      ∧ ((nmsBody dets (dets.map area) it s).keep.take (nmsBody dets (dets.map area) it s).count
          ++ (nmsBody dets (dets.map area) it s).indexes).Nodup
      ∧ ∀ i ∈ (nmsBody dets (dets.map area) it s).keep.take
            (nmsBody dets (dets.map area) it s).count
          ++ (nmsBody dets (dets.map area) it s).indexes, i < dets.length := by
  obtain ⟨keep, count, indexes⟩ := s
  cases indexes with
  | nil => exact absurd rfl hne
  | cons i0 others =>
    obtain ⟨h1, h2, h3, h4⟩ := h
    simp only [List.length_cons] at h1 h2 h3 h4
    rw [nmsBody_cons]
    simp only []
    have hcount : count < keep.length := by omega
    have hflen := List.length_filter_le
      (fun j => (IoU (dets.getD i0 default) (dets.getD j default)).le it) others
    have hsub : List.Sublist
        ((keep.set count i0).take (count + 1) ++ others.filter
          (fun j => (IoU (dets.getD i0 default) (dets.getD j default)).le it))
        (keep.take count ++ i0 :: others) := by
      rw [take_set_succ keep count i0 hcount, List.append_assoc]
      exact List.Sublist.append (List.Sublist.refl _)
        (List.Sublist.cons₂ i0 (List.filter_sublist _))
    refine ⟨by simpa using h1, by omega, h3.sublist hsub, ?_⟩
    intro i hi
    exact h4 i (hsub.subset hi)

theorem nmsLoop_inv (dets : List Det) (it : Flt) :
    ∀ (fuel : Nat) (s : NmsState),
      (s.keep.length = dets.length ∧ s.count + s.indexes.length ≤ dets.length
        ∧ (s.keep.take s.count ++ s.indexes).Nodup
        ∧ ∀ i ∈ s.keep.take s.count ++ s.indexes, i < dets.length) →
      (nmsLoop dets (dets.map area) it fuel s).keep.length = dets.length
        ∧ (nmsLoop dets (dets.map area) it fuel s).count
            + (nmsLoop dets (dets.map area) it fuel s).indexes.length ≤ dets.length
        ∧ ((nmsLoop dets (dets.map area) it fuel s).keep.take
              (nmsLoop dets (dets.map area) it fuel s).count
            ++ (nmsLoop dets (dets.map area) it fuel s).indexes).Nodup
        ∧ ∀ i ∈ (nmsLoop dets (dets.map area) it fuel s).keep.take
              (nmsLoop dets (dets.map area) it fuel s).count
            ++ (nmsLoop dets (dets.map area) it fuel s).indexes, i < dets.length := by
  intro fuel
  induction fuel with
  | zero => intro s h; exact h
  | succ f ih =>
    intro s h
    by_cases hnil : s.indexes = []
    · have h0 : ¬ (s.indexes.length > 0) := by simp [hnil]
      simp only [nmsLoop, h0, if_false]
      exact h
    · have hpos : s.indexes.length > 0 := List.length_pos.2 hnil
      simp only [nmsLoop, hpos, if_true]
      exact ih _ (nmsBody_inv dets it s hnil h)

theorem nmsInit_inv (dets : List Det) :
    (nmsInit dets).keep.length = dets.length
      ∧ (nmsInit dets).count + (nmsInit dets).indexes.length ≤ dets.length
      ∧ ((nmsInit dets).keep.take (nmsInit dets).count ++ (nmsInit dets).indexes).Nodup
      ∧ ∀ i ∈ (nmsInit dets).keep.take (nmsInit dets).count ++ (nmsInit dets).indexes,
          i < dets.length := by
  have hl := torchSort_length (dets.map (fun d => d.c4))
  rw [List.length_map] at hl
  refine ⟨by simp [nmsInit], by simp [nmsInit, hl], ?_, ?_⟩
  · simpa [nmsInit] using torchSort_nodup (dets.map (fun d => d.c4))
  · intro i hi
    have hi2 : i ∈ (torchSort (dets.map (fun d => d.c4))).2 := by simpa [nmsInit] using hi
    simpa using torchSort_lt _ i hi2

theorem nmsKeep_nodup (dets : List Det) (it : Flt) : (nmsKeep dets it).Nodup := by
  rw [nmsKeep_eq]
  exact (torchSort_nodup _).sublist (greedy_sublist dets it _ _)

theorem nms_subperm (dets : List Det) (it : Flt) : List.Subperm (nms dets it) dets := by
  have hsub : List.Subperm (nmsKeep dets it) (List.range dets.length) :=
    List.subperm_of_subset (nmsKeep_nodup dets it)
      (fun i hi => List.mem_range.2 (nmsKeep_lt dets it i hi))
  obtain ⟨l, hperm, hsubl⟩ := hsub
  refine ⟨l.map (fun i => dets.getD i default), hperm.map _, ?_⟩
  have h := hsubl.map (fun i => dets.getD i default)
  rw [map_getD_range] at h
  exact h

/-- C19: for `n` filtered detections, in every state the loop reaches the buffer `keep`
has size `n`, the kept count plus the number of remaining positions is at most `n`, the
kept and the remaining positions are pairwise distinct and each is below `n`; so the
write `keep[count]` of a pass is inside the buffer and every read `dets[indexes[i+1]]` is
in range.  The output lists the detections at pairwise distinct positions below `n`: it
is, up to order, a sub-list of the filtered detections. -/
theorem C19_bounds (dets : List Det) (it : Flt) (k : Nat) :
    (nmsLoop dets (dets.map area) it k (nmsInit dets)).keep.length = dets.length
      ∧ (nmsLoop dets (dets.map area) it k (nmsInit dets)).count
          + (nmsLoop dets (dets.map area) it k (nmsInit dets)).indexes.length ≤ dets.length
      ∧ ((nmsLoop dets (dets.map area) it k (nmsInit dets)).keep.take
            (nmsLoop dets (dets.map area) it k (nmsInit dets)).count
          ++ (nmsLoop dets (dets.map area) it k (nmsInit dets)).indexes).Nodup
      ∧ (∀ i ∈ (nmsLoop dets (dets.map area) it k (nmsInit dets)).keep.take
            (nmsLoop dets (dets.map area) it k (nmsInit dets)).count
          ++ (nmsLoop dets (dets.map area) it k (nmsInit dets)).indexes, i < dets.length)
      ∧ ((nmsLoop dets (dets.map area) it k (nmsInit dets)).indexes ≠ [] →
          (nmsLoop dets (dets.map area) it k (nmsInit dets)).count
            < (nmsLoop dets (dets.map area) it k (nmsInit dets)).keep.length)
      ∧ (nmsKeep dets it).Nodup
      ∧ (∀ i ∈ nmsKeep dets it, i < dets.length)
      ∧ (nmsKeep dets it).length ≤ dets.length
      ∧ nms dets it = (nmsKeep dets it).map (fun i => dets.getD i default)
      ∧ List.Subperm (nms dets it) dets := by
  obtain ⟨h1, h2, h3, h4⟩ := nmsLoop_inv dets it k (nmsInit dets) (nmsInit_inv dets)
  refine ⟨h1, h2, h3, h4, ?_, nmsKeep_nodup dets it, nmsKeep_lt dets it, ?_, rfl,
    nms_subperm dets it⟩
  · intro hne
    have := List.length_pos.2 hne
    omega
  · have h := (nms_subperm dets it).length_le
    unfold nms index_select at h
    simpa using h

/-- Witness of C19: after one pass of the loop for `disjointPair` one position is kept
and one remains, in a buffer of size 2. -/
theorem C19_bounds_witness :
    (nmsLoop (detsOf disjointPair half) ((detsOf disjointPair half).map area) half 1
        (nmsInit (detsOf disjointPair half))).count
      + (nmsLoop (detsOf disjointPair half) ((detsOf disjointPair half).map area) half 1
        (nmsInit (detsOf disjointPair half))).indexes.length
      ≤ (detsOf disjointPair half).length :=
  (C19_bounds (detsOf disjointPair half) half 1).2.1

/-- C20: every detection of every list returned by `non_max_suppression` has a score
column strictly greater than `score_thresh`; the column is `objectness * max(class
scores)` of a raw candidate of the batch, the value the filter compared. -/
theorem C20_score_above_thresh (preds : List (List Row)) (st it : Flt) (out : List Det)
    (hout : out ∈ non_max_suppression preds st it) (d : Det) (hd : d ∈ out) :
    d.c4.gt st = true
      ∧ ∃ pred ∈ preds, ∃ r ∈ pred, d.c4 = r.c4.mul (torchMax r).1
          ∧ r ∈ scoreFilter pred st := by
  obtain ⟨pred, hp, r, hr, hgt, rfl⟩ := mem_output_det preds st it out hout d hd
  refine ⟨hgt, pred, hp, r, hr, rfl, ?_⟩
  rw [scoreFilter_eq]
  exact List.mem_filter.2 ⟨hr, hgt⟩

/-- Witness of C20: the detection returned for `highImage` has score 0.9 > 0.5. -/
theorem C20_score_above_thresh_witness :
    (⟨fin 0, fin 0, fin 10, fin 10, fin (9 / 10), fin 0⟩ : Det).c4.gt half = true :=
  (C20_score_above_thresh [highImage] half half
    [⟨fin 0, fin 0, fin 10, fin 10, fin (9 / 10), fin 0⟩] (by decide!)
    ⟨fin 0, fin 0, fin 10, fin 10, fin (9 / 10), fin 0⟩ (by decide!)).1

end YOLOv5
